import Mathlib

/-!
Verification of the muopdb index core against its specification.

The Rust sources are embedded shallowly:
* machine integers (`u64`, `usize`) become `Nat`; overflow is noted where it
  matters (Rust panics on `usize` underflow / out-of-range selection, which the
  embedding surfaces as an explicit error branch);
* `f32` vector components become `ℚ` (exact arithmetic); the L2 kernel's final
  square root is strictly monotone on nonnegative reals, so every ordering,
  selection and tie comparison made by the index is unchanged when the
  embedding works with the squared distance instead;
* `bitvec`'s `BitVec` becomes `List Bool` (Lsb0 order, as the source uses);
* fallible Rust functions (`Result`, panics) return `Option`.
-/

/-! ## Elias–Fano encoder (src/rs/compression/src/elias_fano/ef.rs) -/

/-- Bit length of a natural number, computed structurally on a fuel argument
so that it reduces in the kernel: `bitLenAux fuel n = 0` for `n = 0`, else one
more than the bit length of `n / 2` (given enough fuel). -/
def bitLenAux : Nat → Nat → Nat
  | 0, _ => 0
  | fuel + 1, n => if n = 0 then 0 else bitLenAux fuel (n / 2) + 1

/-- Bit length of a natural number: `0` for `0`, otherwise `⌊log₂ n⌋ + 1`.
For a nonzero `u64` value `n`, `n.leading_zeros() = 64 - bitLen n`. -/
def bitLen (n : Nat) : Nat :=
  bitLenAux n n

/-- `u64::leading_zeros` for a value `n < 2^64`. -/
def leadingZeros64 (n : Nat) : Nat :=
  64 - bitLen n

/-- `fn msb(n: u64) -> u64`: `0` if `n == 0`, else `63 - n.leading_zeros()`. -/
def msb (n : Nat) : Nat :=
  if n = 0 then 0 else 63 - leadingZeros64 n

/-- `struct EliasFano`. The two bit-vectors are `List Bool` in Lsb0 order. -/
structure EliasFano where
  size : Nat
  lower_bits : List Bool
  upper_bits : List Bool
  lower_bit_mask : Nat
  lower_bit_length : Nat
deriving Repr, DecidableEq

/-- `EliasFano::new(universe, size)`: `lower_bit_length = msb(universe / size)`
when `universe > size`, else `0`; the lower bit-vector is pre-sized to
`size * lower_bit_length` false bits; the upper bit-vector starts empty. -/
def EliasFano.new (univ size : Nat) : EliasFano :=
  let lower_bit_length := if univ > size then msb (univ / size) else 0
  let lower_bit_mask := (1 <<< lower_bit_length) - 1
  let lower_bits := List.replicate (size * lower_bit_length) false
  { size := size
    lower_bits := lower_bits
    upper_bits := []
    lower_bit_mask := lower_bit_mask
    lower_bit_length := lower_bit_length }

/-- The `len` low bits of `n`, least significant first: the value a
`bitvec` `BitSlice::store` of `n` leaves in a `len`-bit Lsb0 slice. -/
def natToBits : Nat → Nat → List Bool
  | 0, _ => []
  | len + 1, n => (n % 2 == 1) :: natToBits len (n / 2)

/-- `BitSlice::load::<u64>` of an Lsb0 slice. -/
def loadBits : List Bool → Nat
  | [] => 0
  | b :: rest => (if b then 1 else 0) + 2 * loadBits rest

/-- `self.lower_bits[start..start + len].store(val)`: overwrite the `len`-bit
slice beginning at `start` with the low bits of `val`. -/
def storeSlice (bits : List Bool) (start len val : Nat) : List Bool :=
  bits.take start ++ natToBits len val ++ bits.drop (start + len)

/-- The loop body of `EliasFano::encode`, iterating over `values` with the
running element index `i` and the previous upper part `prev_high`.  Returns
the final `(lower_bits, upper_bits)`. -/
def EliasFano.encodeLoop (lbl mask : Nat) :
    Nat → Nat → List Bool → List Bool → List Nat → List Bool × List Bool
  | _, _, lower, upper, [] => (lower, upper)
  | i, prev_high, lower, upper, val :: rest =>
    let lower' := if lbl > 0 then storeSlice lower (i * lbl) lbl (val &&& mask) else lower
    let high := val >>> lbl
    let gap := high - prev_high
    let upper' := upper ++ List.replicate gap false ++ [true]
    EliasFano.encodeLoop lbl mask (i + 1) high lower' upper' rest

/-- `EliasFano::encode(values)`. -/
def EliasFano.encode (ef : EliasFano) (values : List Nat) : EliasFano :=
  let p := EliasFano.encodeLoop ef.lower_bit_length ef.lower_bit_mask
    0 0 ef.lower_bits ef.upper_bits values
  { ef with lower_bits := p.1, upper_bits := p.2 }

/-- The inner `while pos < upper_bits.len() && !upper_bits[pos]` loop of
`EliasFano::get`: consume leading zeros, counting them into `high`; stop at
the first one-bit (left in place) or at the end of the bits. -/
def skipZeros : List Bool → Nat → Nat × List Bool
  | [], high => (high, [])
  | b :: rest, high => if b then (high, b :: rest) else skipZeros rest (high + 1)

/-- The outer `for _ in 0..index + 1` loop of `EliasFano::get`: decode
`n` unary groups, returning the accumulated `high`.  The `pos += 1` that
skips each terminating one-bit is the `drop 1`. -/
def decodeHigh : Nat → List Bool → Nat → Nat
  | 0, _, high => high
  | n + 1, bits, high =>
    let p := skipZeros bits high
    decodeHigh n (p.2.drop 1) p.1

/-- `EliasFano::get(index)`: `Err` (here `none`) when `index >= size`;
otherwise reassemble the value from the decoded upper part and the `index`-th
lower-bit slot. -/
def EliasFano.get (ef : EliasFano) (index : Nat) : Option Nat :=
  if index ≥ ef.size then none
  else
    let high := decodeHigh (index + 1) ef.upper_bits 0
    let low :=
      if ef.lower_bit_length > 0 then
        loadBits ((ef.lower_bits.drop (index * ef.lower_bit_length)).take
          ef.lower_bit_length) &&& ef.lower_bit_mask
      else 0
    some ((high <<< ef.lower_bit_length) ||| low)

/-- `EliasFano::len()`. -/
def EliasFano.len (ef : EliasFano) : Nat := ef.size

/-- Total number of stored bits (lower plus upper bit-vector). -/
def EliasFano.total_bits (ef : EliasFano) : Nat :=
  ef.lower_bits.length + ef.upper_bits.length

/-- The unary gap coding of the upper parts `hs` relative to the previous
upper part `prev`: for each element, `h - prev` zero bits, then a one bit. -/
def unaryGaps : Nat → List Nat → List Bool
  | _, [] => []
  | prev, h :: rest => List.replicate (h - prev) false ++ true :: unaryGaps h rest

/-! ## Distance kernels (src/rs/utils/src/distance/) -/

/-- `DotProductDistanceCalculator::neg_score`: the lower the distance the
greater the similarity, so the dot product is negated. -/
def neg_score (x : ℚ) : ℚ := -x

/-- The scalar accumulation loop `for i in 0..a.len() { ret += a[i] * b[i] }`
of `DotProductDistanceCalculator::calculate_scalar` with accumulator `acc`;
on the equal-length slices the kernels require, it consumes both lists in
lockstep. -/
def dotLoop : List ℚ → List ℚ → ℚ → ℚ
  | x :: xs, y :: ys, acc => dotLoop xs ys (acc + x * y)
  | _, _, acc => acc

/-- `DotProductDistanceCalculator::calculate_scalar`. -/
def DotProductDistanceCalculator.calculate_scalar (a b : List ℚ) : ℚ :=
  neg_score (dotLoop a b 0)

/-- The mathematical dot product `Σ aᵢ·bᵢ` named by the spec ("Dot product
returns −Σaᵢbᵢ"), the reference value the kernels are compared against. -/
def dotProductSpec (a b : List ℚ) : ℚ :=
  (List.zipWith (· * ·) a b).sum

/-- `DistanceCalculator::accumulate_lanes::<LANES>`: walk the zipped
`chunks_exact(LANES)` of `a` and `b`, adding the element-wise product of each
chunk pair into the `LANES`-wide lane accumulator `acc`
(`accumulator.add_assign(a_simd * b_simd)`). -/
def accumulate_lanes (lanes : Nat) (a b : List ℚ) (acc : List ℚ) : List ℚ :=
  if h : 0 < lanes ∧ lanes ≤ a.length ∧ lanes ≤ b.length then
    accumulate_lanes lanes (a.drop lanes) (b.drop lanes)
      (List.zipWith (· + ·) acc
        (List.zipWith (· * ·) (a.take lanes) (b.take lanes)))
  else acc
termination_by a.length
decreasing_by
  simp only [List.length_drop]
  omega

/-- One SIMD stage of `DotProductDistanceCalculator::calculate` on the state
`(res, a_vec, b_vec)`: when more than `lanes` elements remain, accumulate all
full chunks, `reduce_sum` the lane accumulator into `res`, and continue with
the `chunks_exact(lanes).remainder()` of each slice. -/
def simdStage (lanes : Nat) (st : ℚ × List ℚ × List ℚ) : ℚ × List ℚ × List ℚ :=
  if st.2.1.length > lanes then
    (st.1 + (accumulate_lanes lanes st.2.1 st.2.2 (List.replicate lanes 0)).sum,
      st.2.1.drop (lanes * (st.2.1.length / lanes)),
      st.2.2.drop (lanes * (st.2.2.length / lanes)))
  else st

/-- `DotProductDistanceCalculator::calculate`: the 16-, 8-, then 4-wide SIMD
cascade followed by the scalar tail loop, with the final `neg_score`. -/
def DotProductDistanceCalculator.calculate (a b : List ℚ) : ℚ :=
  let st := simdStage 4 (simdStage 8 (simdStage 16 (0, a, b)))
  neg_score (dotLoop st.2.1 st.2.2 st.1)

/-- `L2DistanceCalculator::calculate_scalar` computes `√(Σ (aᵢ−bᵢ)²)`.
`ℚ` has no square root, and `√` is strictly monotone on nonnegatives, so the
embedding carries the squared distance `Σ (aᵢ−bᵢ)²`: every comparison,
ordering and tie that the index derives from distances is unchanged. -/
def l2_sq (a b : List ℚ) : ℚ :=
  (List.zipWith (fun x y => (x - y) ^ 2) a b).sum

/-! ## IVF index (src/rs/index/src/ivf/index.rs) -/

/-- Modelled from the spec: `IdWithScore` lives in `crate::utils`, which is
not under src/ — a search result carrying an `f32` score and a `u64` id. -/
structure IdWithScore where
  score : ℚ
  id : Nat
deriving Repr, DecidableEq

/-- Modelled from the spec: "Ordering of `IdWithScore`: primarily by score
ascending; ties broken by id ascending" (`crate::utils` is not under src/). -/
def IdWithScore.le (x y : IdWithScore) : Prop :=
  x.score < y.score ∨ (x.score = y.score ∧ x.id ≤ y.id)

/-- Modelled from the spec: the strict form of the `IdWithScore` order, the
`id_with_score < *max` comparison used by `search_with_centroids`. -/
def IdWithScore.lt (x y : IdWithScore) : Prop :=
  x.score < y.score ∨ (x.score = y.score ∧ x.id < y.id)

instance decIdWithScoreLe : DecidableRel IdWithScore.le := fun x y =>
  inferInstanceAs (Decidable (x.score < y.score ∨ (x.score = y.score ∧ x.id ≤ y.id)))

instance decIdWithScoreLt : DecidableRel IdWithScore.lt := fun x y =>
  inferInstanceAs (Decidable (x.score < y.score ∨ (x.score = y.score ∧ x.id < y.id)))

instance idWithScoreLeTotal : IsTotal IdWithScore IdWithScore.le :=
  ⟨fun x y => by
    unfold IdWithScore.le
    rcases lt_trichotomy x.score y.score with h | h | h
    · exact Or.inl (Or.inl h)
    · rcases Nat.le_total x.id y.id with h2 | h2
      · exact Or.inl (Or.inr ⟨h, h2⟩)
      · exact Or.inr (Or.inr ⟨h.symm, h2⟩)
    · exact Or.inr (Or.inl h)⟩

instance idWithScoreLeTrans : IsTrans IdWithScore IdWithScore.le :=
  ⟨fun x y z hxy hyz => by
    unfold IdWithScore.le at *
    rcases hxy with h1 | ⟨h1, h1'⟩ <;> rcases hyz with h2 | ⟨h2, h2'⟩
    · exact Or.inl (lt_trans h1 h2)
    · exact Or.inl (h2 ▸ h1)
    · exact Or.inl (h1 ▸ h2)
    · exact Or.inr ⟨h1.trans h2, le_trans h1' h2'⟩⟩

instance idWithScoreLeRefl : IsRefl IdWithScore IdWithScore.le :=
  ⟨fun x => Or.inr ⟨rfl, le_refl _⟩⟩

instance idWithScoreLeAntisymm : IsAntisymm IdWithScore IdWithScore.le :=
  ⟨fun x y hxy hyx => by
    unfold IdWithScore.le at hxy hyx
    cases x with
    | mk xs xi =>
      cases y with
      | mk ys yi =>
        simp only at hxy hyx
        rcases hxy with h1 | ⟨h1, h1'⟩ <;> rcases hyx with h2 | ⟨h2, h2'⟩
        · exact absurd h2 (lt_asymm h1)
        · exact absurd h1 (by rw [h2]; exact lt_irrefl _)
        · exact absurd h2 (by rw [h1]; exact lt_irrefl _)
        · have : xi = yi := le_antisymm h1' h2'
          rw [h1, this]⟩

/-- Modelled from the spec: `FixedIndexFile`
(`crate::posting_list::combined_file`, not under src/) — §3's IVF index file:
a header carrying `num_clusters`, the centroid vectors, and the posting
lists reached through the directory.  `get_centroid(i)` fails for an
out-of-range index; `get_posting_list(c)` fails for an out-of-range index or
a corrupt directory entry (IndexCorrupt), modelled by a `none` entry. -/
structure FixedIndexFile where
  header_num_clusters : Nat
  centroids : List (List ℚ)
  posting_lists : List (Option (List Nat))

/-- `FixedIndexFile::get_centroid` (spec-modelled, see `FixedIndexFile`). -/
def FixedIndexFile.get_centroid (f : FixedIndexFile) (i : Nat) :
    Option (List ℚ) :=
  f.centroids[i]?

/-- `FixedIndexFile::get_posting_list` (spec-modelled, see
`FixedIndexFile`). -/
def FixedIndexFile.get_posting_list (f : FixedIndexFile) (c : Nat) :
    Option (List Nat) :=
  match f.posting_lists[c]? with
  | some (some l) => some l
  | _ => none

/-- Modelled from the spec: `FixedFileVectorStorage<f32>`
(`crate::vector::fixed_file`, not under src/): `get(i)` returns the `i`-th
stored vector, or `None` on a vector-storage miss. -/
structure FixedFileVectorStorage where
  vectors : List (Option (List ℚ))

/-- `FixedFileVectorStorage::get` (spec-modelled, see
`FixedFileVectorStorage`; the `SearchContext` argument only collects
statistics and is omitted). -/
def FixedFileVectorStorage.get (s : FixedFileVectorStorage) (i : Nat) :
    Option (List ℚ) :=
  match s.vectors[i]? with
  | some (some v) => some v
  | _ => none

/-- `struct Ivf`. -/
structure Ivf where
  vector_storage : FixedFileVectorStorage
  index_storage : FixedIndexFile
  num_clusters : Nat

/-- The comparator `|a, b| a.1.total_cmp(&b.1)` used by
`find_nearest_centroids` (in the source the tuple field `1` is the `f32`
distance): compare `(centroid_id, distance)` pairs by distance. -/
def distCmpLe (x y : Nat × ℚ) : Prop := x.2 ≤ y.2

instance decDistCmpLe : DecidableRel distCmpLe := fun x y =>
  inferInstanceAs (Decidable (x.2 ≤ y.2))

instance distCmpLeTotal : IsTotal (Nat × ℚ) distCmpLe :=
  ⟨fun x y => le_total x.2 y.2⟩

instance distCmpLeTrans : IsTrans (Nat × ℚ) distCmpLe :=
  ⟨fun _ _ _ hxy hyz => le_trans hxy hyz⟩

/-- The ranking the spec describes for centroids: by distance ascending with
ties broken in favor of the lower centroid id — the lexicographic order on
`(distance, centroid_id)`. -/
def distIdLexLe (x y : Nat × ℚ) : Prop :=
  x.2 < y.2 ∨ (x.2 = y.2 ∧ x.1 ≤ y.1)

instance decDistIdLexLe : DecidableRel distIdLexLe := fun x y =>
  inferInstanceAs (Decidable (x.2 < y.2 ∨ (x.2 = y.2 ∧ x.1 ≤ y.1)))

instance distIdLexLeTotal : IsTotal (Nat × ℚ) distIdLexLe :=
  ⟨fun x y => by
    unfold distIdLexLe
    rcases lt_trichotomy x.2 y.2 with h | h | h
    · exact Or.inl (Or.inl h)
    · rcases Nat.le_total x.1 y.1 with h2 | h2
      · exact Or.inl (Or.inr ⟨h, h2⟩)
      · exact Or.inr (Or.inr ⟨h.symm, h2⟩)
    · exact Or.inr (Or.inl h)⟩

instance distIdLexLeTrans : IsTrans (Nat × ℚ) distIdLexLe :=
  ⟨fun x y z hxy hyz => by
    unfold distIdLexLe at *
    rcases hxy with h1 | ⟨h1, h1'⟩ <;> rcases hyz with h2 | ⟨h2, h2'⟩
    · exact Or.inl (lt_trans h1 h2)
    · exact Or.inl (h2 ▸ h1)
    · exact Or.inl (h1 ▸ h2)
    · exact Or.inr ⟨h1.trans h2, le_trans h1' h2'⟩⟩

instance distIdLexLeAntisymm : IsAntisymm (Nat × ℚ) distIdLexLe :=
  ⟨fun x y hxy hyx => by
    unfold distIdLexLe at hxy hyx
    obtain ⟨xi, xd⟩ := x
    obtain ⟨yi, yd⟩ := y
    simp only at hxy hyx
    rcases hxy with h1 | ⟨h1, h1'⟩ <;> rcases hyx with h2 | ⟨h2, h2'⟩
    · exact absurd h2 (lt_asymm h1)
    · exact absurd h1 (by rw [h2]; exact lt_irrefl _)
    · exact absurd h2 (by rw [h1]; exact lt_irrefl _)
    · have : xi = yi := le_antisymm h1' h2'
      rw [h1, this]⟩

/-- The distance-building loop of `Ivf::find_nearest_centroids`: for each
`i in 0..header.num_clusters`, fetch the centroid — the `?` operator
propagates a failure — and push `(i, L2(query, centroid))`. -/
def computeDistances (vector : List ℚ) (index_storage : FixedIndexFile) :
    Option (List (Nat × ℚ)) :=
  (List.range index_storage.header_num_clusters).mapM
    (fun i => (index_storage.get_centroid i).map fun c => (i, l2_sq vector c))

/-- `Ivf::find_nearest_centroids(vector, index_storage, num_probes)`, as one
admissible outcome.  The failure behaviour is exact: the `?` on
`get_centroid` propagates a failure, and
`distances.select_nth_unstable_by(num_probes - 1, |a, b| a.1.total_cmp(&b.1))`
panics when `num_probes = 0` (`usize` underflow) or when
`num_probes - 1 >= distances.len()` — the `none` branches.  In the success
branch this function returns the fully distance-sorted choice; but
`select_nth_unstable_by` is documented as unstable, so which of several
distance-tied centroids survives the selection is not determined by the
program.  The faithful embedding of the success branch is therefore the
relation `Ivf.find_nearest_centroids_rel` over all outcomes its contract
admits, of which this function computes one
(`find_nearest_centroids_refines`); any tie-sensitive property must be read
off the relation, not this function. -/
def Ivf.find_nearest_centroids (vector : List ℚ)
    (index_storage : FixedIndexFile) (num_probes : Nat) : Option (List Nat) :=
  match computeDistances vector index_storage with
  | none => none
  | some distances =>
    if num_probes = 0 then none
    else if distances.length ≤ num_probes - 1 then none
    else
      let sorted := List.insertionSort distCmpLe distances
      let nearest_centroids := sorted.take num_probes
      some ((List.insertionSort distCmpLe nearest_centroids).map Prod.fst)

/-- The documented contract of `slice::select_nth_unstable_by(n, cmp)`: the
slice is reordered into some unspecified permutation `out` in which the
element at index `n` is in its final sorted position — everything before it
compares less than or equal to it, everything after it compares greater than
or equal to it, under the comparator `r`.  "Unstable" means any permutation
with this property may occur, so the embedding keeps the whole set. -/
def selectNthBySpec (r : Nat × ℚ → Nat × ℚ → Prop) (n : Nat)
    (l out : List (Nat × ℚ)) : Prop :=
  out.Perm l ∧
  ∃ m, out[n]? = some m ∧
    (∀ x ∈ out.take n, r x m) ∧ (∀ x ∈ out.drop (n + 1), r m x)

/-- The guarantee of the final `nearest_centroids.sort_by(|a, b|
a.1.total_cmp(&b.1))`: some permutation of the input that is sorted by
distance.  (Rust's `sort_by` is stable, but its input here is an unspecified
permutation produced by the unstable selection, so relative order of
distance ties is again not determined by the program.) -/
def sortByDistSpec (l out : List (Nat × ℚ)) : Prop :=
  out.Perm l ∧ List.Sorted distCmpLe out

/-- `Ivf::find_nearest_centroids` as a relation from the inputs to every
return value the program text admits: the `get_centroid` failure propagation
and the two panic conditions of `select_nth_unstable_by` are exact (as in
`Ivf.find_nearest_centroids`); the success branch quantifies over the
unspecified permutation chosen by the unstable selection and over the final
sort's arrangement of distance ties. -/
def Ivf.find_nearest_centroids_rel (vector : List ℚ)
    (index_storage : FixedIndexFile) (num_probes : Nat)
    (out : Option (List Nat)) : Prop :=
  match computeDistances vector index_storage with
  | none => out = none
  | some distances =>
    if num_probes = 0 then out = none
    else if distances.length ≤ num_probes - 1 then out = none
    else ∃ selected nearest_sorted,
      selectNthBySpec distCmpLe (num_probes - 1) distances selected ∧
      sortByDistSpec (selected.take num_probes) nearest_sorted ∧
      out = some (nearest_sorted.map Prod.fst)

/-- `Ivf::scan_posting_list(centroid, query)`: when
`get_posting_list(centroid)` succeeds, iterate the decoded posting list,
fetch each vector, skip storage misses (`None => {}`), and push
`IdWithScore { score: distance, id: idx }`; when it fails (`else` branch) the
error is dropped and the empty vector is returned. -/
def Ivf.scan_posting_list (ivf : Ivf) (centroid : Nat) (query : List ℚ) :
    List IdWithScore :=
  match ivf.index_storage.get_posting_list centroid with
  | some list =>
    list.foldl (fun results idx =>
      match ivf.vector_storage.get idx with
      | some vector => results ++ [{ score := l2_sq vector query, id := idx }]
      | none => results) []
  | none => []

/-- `BinaryHeap<IdWithScore>` (Rust's max-heap), modelled by its multiset of
elements kept as a list sorted ascending in the `IdWithScore` order: `peek`
returns the last element (the maximum), `pop` drops it, `push` is ordered
insertion.  `heapPush` is the loop body of `search_with_centroids`: push when
below capacity `k`, otherwise replace the maximum when the candidate is
strictly smaller. -/
def heapPush (k : Nat) (heap : List IdWithScore) (x : IdWithScore) :
    List IdWithScore :=
  if heap.length < k then heap.orderedInsert IdWithScore.le x
  else
    match heap.getLast? with
    | none => heap
    | some maxEl =>
      if IdWithScore.lt x maxEl then
        heap.dropLast.orderedInsert IdWithScore.le x
      else heap

/-- `Ivf::search_with_centroids(query, nearest_centroid_ids, k)`: fold the
bounded max-heap over each centroid's scan results; the final
`heap.into_vec()` followed by the stable `results.sort()` is exactly the
heap's ascending list, which the model maintains directly. -/
def Ivf.search_with_centroids (ivf : Ivf) (query : List ℚ)
    (nearest_centroid_ids : List Nat) (k : Nat) : List IdWithScore :=
  nearest_centroid_ids.foldl
    (fun heap centroid =>
      (ivf.scan_posting_list centroid query).foldl (heapPush k) heap) []

/-- `impl Index for Ivf — fn search(query, k, ef_construction)`: find the
nearest centroids (`ef_construction` is the probe count), then search their
posting lists; an error finding centroids yields `None`. -/
def Ivf.search (ivf : Ivf) (query : List ℚ) (k : Nat)
    (ef_construction : Nat) : Option (List IdWithScore) :=
  match Ivf.find_nearest_centroids query ivf.index_storage ef_construction with
  | some nearest_centroids =>
    some (ivf.search_with_centroids query nearest_centroids k)
  | none => none

/-! ## Multi-SPANN (src/rs/index/src/multi_spann/index.rs) -/

/-- Modelled from the spec: a per-user `Spann` index abstracted to its search
behaviour — `Spann::search` lives in `crate::spann::index`, not under
src/. -/
structure Spann where
  searchFn : List ℚ → Nat → Nat → Option (List IdWithScore)

/-- Modelled from the spec: the value stored per user in the mmap'd
`user_index_info` hash table — four byte offsets into the shared files. -/
structure UserIndexInfo where
  centroid_index_offset : Nat
  centroid_vector_offset : Nat
  ivf_index_offset : Nat
  ivf_vectors_offset : Nat

/-- `MultiSpannIndex`: the in-memory concurrent map `user_to_spann`
(`DashMap`) and the mmap'd `user_index_infos` hash table
(`HashTableOwned<HashConfig>`) become association lists keyed by the `u128`
user id; `read_spann info` stands for
`SpannReader::new_with_offsets(base_directory, info…).read::<Q>()`
(`Ok` = `some`). -/
structure MultiSpannIndex where
  user_to_spann : List (Nat × Spann)
  user_index_infos : List (Nat × UserIndexInfo)
  read_spann : UserIndexInfo → Option Spann

/-- `MultiSpannIndex::search_with_id(id, query, k, ef_construction)`: consult
the in-memory map; on a miss, look the user up in the mmap'd hash table —
a missing user returns `None` ("no result"); otherwise read the user's Spann
at its offsets and dispatch.  (The `user_to_spann.insert` caching only
affects later calls, not the returned value.) -/
def MultiSpannIndex.search_with_id (m : MultiSpannIndex) (id : Nat)
    (query : List ℚ) (k : Nat) (ef_construction : Nat) :
    Option (List IdWithScore) :=
  match m.user_to_spann.lookup id with
  | none =>
    match m.user_index_infos.lookup id with
    | none => none
    | some index_info =>
      match m.read_spann index_info with
      | some index => index.searchFn query k ef_construction
      | none => none
  | some index => index.searchFn query k ef_construction

/-- `MultiSpannIndex::search` is defined as `search_with_id(0, …)`. -/
def MultiSpannIndex.search (m : MultiSpannIndex) (query : List ℚ)
    (k : Nat) (ef_construction : Nat) : Option (List IdWithScore) :=
  m.search_with_id 0 query k ef_construction

/-! ## Collection reader (src/rs/index/src/collection/reader.rs) -/

/-- Modelled from the spec: `TableOfContent` (`crate::collection`, not under
src/) — the JSON `{"toc": [segment names]}` held by a `version_N` file. -/
structure TableOfContent where
  toc : List String

/-- A read segment: one Multi-SPANN per TOC entry
(`ImmutableSegment::new(index)` wraps the index it is built from). -/
def Segment := MultiSpannIndex

/-- The collection directory as `CollectionReader::read` sees it: the
`version_N` files present (with the TOC each holds) and the segment
subdirectories that read successfully as Multi-SPANN indexes.
(`collection_config.json` only selects the quantizer type; both of its
branches construct one segment per TOC entry.) -/
structure CollectionDir where
  versions : List (Nat × TableOfContent)
  segments : List (String × Segment)

/-- Modelled from the spec: `utils::io::get_latest_version` (not under src/)
"resolves latest version by scanning for the maximum `N` for which
`version_N` exists"; an error (`none`) when no version file exists. -/
def get_latest_version (dir : CollectionDir) : Option Nat :=
  (dir.versions.map Prod.fst).max?

/-- The `Collection` snapshot state `CollectionReader::read` constructs:
`(version, TOC, segments)`. -/
structure Collection where
  current_version : Nat
  toc : TableOfContent
  segments : List Segment

/-- `CollectionReader::read`: resolve the latest version, open that
`version_N` file's TOC, read one Multi-SPANN segment per TOC entry
(propagating failure with `?`), and build the collection. -/
def CollectionReader.read (dir : CollectionDir) : Option Collection :=
  match get_latest_version dir with
  | none => none
  | some latest_version =>
    match dir.versions.lookup latest_version with
    | none => none
    | some table =>
      match table.toc.mapM (fun name => dir.segments.lookup name) with
      | none => none
      | some segments =>
        some { current_version := latest_version, toc := table,
               segments := segments }

/-! ### Elias–Fano: supporting lemmas -/

theorem natToBits_length (len n : Nat) : (natToBits len n).length = len := by
  induction len generalizing n with
  | zero => rfl
  | succ l ih => simp [natToBits, ih]

theorem loadBits_natToBits (len n : Nat) :
    loadBits (natToBits len n) = n % 2 ^ len := by
  induction len generalizing n with
  | zero => simp [natToBits, loadBits, Nat.mod_one]
  | succ l ih =>
    have h2 : (2 : Nat) ^ (l + 1) = 2 * 2 ^ l := by ring
    simp only [natToBits, loadBits, ih, h2, Nat.mod_mul]
    rcases Nat.mod_two_eq_zero_or_one n with h | h <;> simp [h]

theorem encodeLoop_upper (lbl mask : Nat) (vals : List Nat) :
    ∀ i prev lower upper,
      (EliasFano.encodeLoop lbl mask i prev lower upper vals).2
        = upper ++ unaryGaps prev (vals.map (· >>> lbl)) := by
  induction vals with
  | nil => intro i prev lower upper; simp [EliasFano.encodeLoop, unaryGaps]
  | cons v rest ih =>
    intro i prev lower upper
    simp only [EliasFano.encodeLoop, List.map_cons, unaryGaps, ih]
    simp

theorem flatten_natToBits_zero (mask : Nat) (l : List Nat) :
    (l.map fun v => natToBits 0 (v &&& mask)).flatten = [] := by
  induction l with
  | nil => rfl
  | cons v rest ih => simp [natToBits, ih]

theorem storeSlice_length (bits : List Bool) (start len val : Nat)
    (h : start + len ≤ bits.length) :
    (storeSlice bits start len val).length = bits.length := by
  simp only [storeSlice, List.length_append, List.length_take, List.length_drop,
    natToBits_length]
  rw [Nat.min_eq_left (by omega)]
  omega

theorem encodeLoop_lower (lbl mask : Nat) (vals : List Nat) :
    ∀ i prev lower upper, lower.length = (i + vals.length) * lbl →
      (EliasFano.encodeLoop lbl mask i prev lower upper vals).1
        = lower.take (i * lbl)
            ++ (vals.map fun v => natToBits lbl (v &&& mask)).flatten := by
  induction vals with
  | nil =>
    intro i prev lower upper hlen
    simp only [EliasFano.encodeLoop, List.map_nil, List.flatten_nil, List.append_nil]
    have hlen' : lower.length = i * lbl := by simpa using hlen
    rw [← hlen', List.take_length]
  | cons v rest ih =>
    intro i prev lower upper hlen
    simp only [List.length_cons] at hlen
    rcases Nat.eq_zero_or_pos lbl with hz | hpos
    · subst hz
      have h0 : lower = [] := by
        rw [Nat.mul_zero] at hlen
        exact List.eq_nil_of_length_eq_zero hlen
      subst h0
      simp only [EliasFano.encodeLoop, gt_iff_lt, Nat.lt_irrefl, if_false]
      rw [ih (i + 1) _ _ _ (by simp)]
      simp [flatten_natToBits_zero, natToBits]
    · have hle : i * lbl + lbl ≤ lower.length := by
        rw [hlen]
        calc i * lbl + lbl = (i + 1) * lbl := by ring
        _ ≤ (i + (rest.length + 1)) * lbl := Nat.mul_le_mul_right _ (by omega)
      simp only [EliasFano.encodeLoop, hpos, if_pos, gt_iff_lt]
      have hlen' : (storeSlice lower (i * lbl) lbl (v &&& mask)).length
          = (i + 1 + rest.length) * lbl := by
        rw [storeSlice_length _ _ _ _ hle, hlen]
        ring
      rw [ih (i + 1) _ _ _ hlen']
      have hA : (lower.take (i * lbl)).length = i * lbl := by
        rw [List.length_take]
        exact Nat.min_eq_left (by omega)
      simp only [storeSlice]
      have hstep : (lower.take (i * lbl) ++ (natToBits lbl (v &&& mask)
            ++ lower.drop (i * lbl + lbl))).take ((i + 1) * lbl)
          = lower.take (i * lbl) ++ natToBits lbl (v &&& mask) := by
        have h4 : (i + 1) * lbl = (lower.take (i * lbl)).length + lbl := by
          rw [hA]; ring
        rw [h4, List.take_append]
        congr 1
        exact List.take_left' (natToBits_length _ _)
      rw [List.append_assoc, hstep]
      simp

theorem skipZeros_replicate (k : Nat) (t : List Bool) (high : Nat) :
    skipZeros (List.replicate k false ++ true :: t) high = (high + k, true :: t) := by
  induction k generalizing high with
  | zero => simp [skipZeros]
  | succ k ih =>
    rw [List.replicate_succ, List.cons_append]
    have hstep : skipZeros (false :: (List.replicate k false ++ true :: t)) high
        = skipZeros (List.replicate k false ++ true :: t) (high + 1) := by
      simp [skipZeros]
    rw [hstep, ih]
    congr 1
    omega

theorem decodeHigh_unaryGaps (hs : List Nat) :
    ∀ prev i (hi : i < hs.length), List.Chain (· ≤ ·) prev hs →
      decodeHigh (i + 1) (unaryGaps prev hs) prev = hs.get ⟨i, hi⟩ := by
  induction hs with
  | nil => intro prev i hi _; exact absurd hi (by simp)
  | cons h rest ih =>
    intro prev i hi hchain
    cases hchain with
    | cons hph hcr =>
      cases i with
      | zero =>
        show decodeHigh 1 (unaryGaps prev (h :: rest)) prev = h
        rw [unaryGaps]
        simp only [decodeHigh, skipZeros_replicate, List.drop_succ_cons, List.drop_zero]
        omega
      | succ j =>
        show decodeHigh (j + 1 + 1) (unaryGaps prev (h :: rest)) prev
            = (h :: rest).get ⟨j + 1, hi⟩
        rw [unaryGaps]
        simp only [decodeHigh, skipZeros_replicate, List.drop_succ_cons, List.drop_zero]
        have hph' : prev + (h - prev) = h := by omega
        rw [hph']
        have hj : j < rest.length := by simpa using hi
        exact ih h j hj hcr

theorem encode_new_upper (U : Nat) (v : List Nat) :
    ((EliasFano.new U v.length).encode v).upper_bits
      = unaryGaps 0 (v.map (· >>> (EliasFano.new U v.length).lower_bit_length)) := by
  simp only [EliasFano.encode, encodeLoop_upper]
  simp [EliasFano.new]

theorem encode_new_lower (U : Nat) (v : List Nat) :
    ((EliasFano.new U v.length).encode v).lower_bits
      = (v.map fun x => natToBits (EliasFano.new U v.length).lower_bit_length
          (x &&& (EliasFano.new U v.length).lower_bit_mask)).flatten := by
  have hlen : (EliasFano.new U v.length).lower_bits.length
      = (0 + v.length) * (EliasFano.new U v.length).lower_bit_length := by
    simp [EliasFano.new]
  have h := encodeLoop_lower (EliasFano.new U v.length).lower_bit_length
    (EliasFano.new U v.length).lower_bit_mask v 0 0
    (EliasFano.new U v.length).lower_bits (EliasFano.new U v.length).upper_bits hlen
  simp only [EliasFano.encode]
  rw [h]
  simp

theorem flatten_slot (lbl : Nat) (f : Nat → List Bool)
    (hf : ∀ v, (f v).length = lbl) (vals : List Nat) :
    ∀ i (hi : i < vals.length),
      ((vals.map f).flatten.drop (i * lbl)).take lbl = f (vals.get ⟨i, hi⟩) := by
  induction vals with
  | nil => intro i hi; exact absurd hi (by simp)
  | cons v rest ih =>
    intro i hi
    cases i with
    | zero =>
      simp only [List.map_cons, List.flatten_cons, Nat.zero_mul, List.drop_zero,
        List.get]
      exact List.take_left' (hf v)
    | succ j =>
      simp only [List.map_cons, List.flatten_cons, List.get]
      have hd : (j + 1) * lbl = (f v).length + j * lbl := by rw [hf v]; ring
      rw [hd, List.drop_append]
      exact ih j (by simpa using hi)

theorem EliasFano.get_encode (U : Nat) (v : List Nat)
    (hv : List.Sorted (· ≤ ·) v) (i : Nat) (hi : i < v.length) :
    ((EliasFano.new U v.length).encode v).get i = some (v.get ⟨i, hi⟩) := by
  set lbl := (EliasFano.new U v.length).lower_bit_length with hlbl
  have hsize : ((EliasFano.new U v.length).encode v).size = v.length := rfl
  have hElbl : ((EliasFano.new U v.length).encode v).lower_bit_length = lbl := rfl
  have hEmask : ((EliasFano.new U v.length).encode v).lower_bit_mask
      = (EliasFano.new U v.length).lower_bit_mask := rfl
  have hmask : (EliasFano.new U v.length).lower_bit_mask = 2 ^ lbl - 1 := by
    show (1 <<< lbl) - 1 = 2 ^ lbl - 1
    rw [Nat.shiftLeft_eq, one_mul]
  have hchain : List.Chain (· ≤ ·) 0 (v.map (· >>> lbl)) := by
    rw [List.chain_iff_pairwise]
    refine List.pairwise_cons.mpr ⟨fun x _ => Nat.zero_le x, ?_⟩
    exact List.Pairwise.map _
      (fun a b hab => by
        simp only [Nat.shiftRight_eq_div_pow]
        exact Nat.div_le_div_right hab) hv
  have hmap : i < (v.map (· >>> lbl)).length := by simpa using hi
  have hhigh : decodeHigh (i + 1)
      ((EliasFano.new U v.length).encode v).upper_bits 0
      = v.get ⟨i, hi⟩ >>> lbl := by
    rw [encode_new_upper, decodeHigh_unaryGaps (v.map (· >>> lbl)) 0 i hmap hchain]
    simp [List.get_eq_getElem]
  have hslot : lbl > 0 →
      loadBits ((((EliasFano.new U v.length).encode v).lower_bits.drop
        (i * lbl)).take lbl) &&& (2 ^ lbl - 1)
      = v.get ⟨i, hi⟩ % 2 ^ lbl := by
    intro _
    rw [encode_new_lower]
    rw [flatten_slot lbl _ (fun x => natToBits_length _ _) v i hi]
    rw [loadBits_natToBits, hmask, Nat.and_pow_two_sub_one_eq_mod,
      Nat.mod_mod_of_dvd _ dvd_rfl, Nat.and_pow_two_sub_one_eq_mod,
      Nat.mod_mod_of_dvd _ dvd_rfl]
  simp only [EliasFano.get, hElbl, hEmask, hmask, hsize]
  rw [if_neg (by omega)]
  rcases Nat.eq_zero_or_pos lbl with hz | hpos
  · rw [hhigh, hz]
    simp
  · rw [if_pos hpos, hhigh, hslot hpos]
    congr 1
    rw [Nat.shiftRight_eq_div_pow, Nat.shiftLeft_eq, Nat.mul_comm,
      ← Nat.mul_add_lt_is_or (Nat.mod_lt _ (Nat.pos_pow_of_pos lbl (by omega))) _,
      Nat.div_add_mod]

theorem bitLenAux_eq (fuel : Nat) :
    ∀ n, n ≤ fuel → bitLenAux fuel n = if n = 0 then 0 else Nat.log 2 n + 1 := by
  induction fuel with
  | zero =>
    intro n h
    have : n = 0 := by omega
    subst this
    rfl
  | succ f ih =>
    intro n h
    by_cases hn : n = 0
    · simp [bitLenAux, hn]
    · have hdiv : n / 2 < n := Nat.div_lt_self (by omega) (by omega)
      have h2 : n / 2 ≤ f := by omega
      rw [bitLenAux, if_neg hn, ih _ h2]
      by_cases h1 : n / 2 = 0
      · have hone : n = 1 := by omega
        subst hone
        simp [Nat.log_one_right]
      · rw [if_neg h1, Nat.log_div_base, if_neg hn]
        have hn2 : 2 ≤ n := by omega
        have hpos : 1 ≤ Nat.log 2 n := by
          by_contra hc
          have h0 : Nat.log 2 n = 0 := by omega
          rcases Nat.log_eq_zero_iff.mp h0 with h' | h' <;> omega
        omega

theorem bitLen_eq (n : Nat) : bitLen n = if n = 0 then 0 else Nat.log 2 n + 1 :=
  bitLenAux_eq n n (Nat.le_refl n)

theorem msb_eq_log (n : Nat) (hn : 0 < n) (hlt : n < 2 ^ 64) :
    msb n = Nat.log 2 n := by
  have hlog : Nat.log 2 n < 64 := (Nat.lt_pow_iff_log_lt (by omega) (by omega)).mp hlt
  simp only [msb, leadingZeros64, bitLen_eq]
  rw [if_neg (by omega), if_neg (by omega)]
  omega

theorem new_lbl_of_lt (U N : Nat) (h : N < U) :
    (EliasFano.new U N).lower_bit_length = msb (U / N) := by
  simp [EliasFano.new, h]

theorem new_lbl_of_ge (U N : Nat) (h : U ≤ N) :
    (EliasFano.new U N).lower_bit_length = 0 := by
  simp [EliasFano.new, Nat.not_lt.mpr h]

theorem chain_highs (lbl : Nat) (v : List Nat) (hv : List.Sorted (· ≤ ·) v) :
    List.Chain (· ≤ ·) 0 (v.map (· >>> lbl)) := by
  rw [List.chain_iff_pairwise]
  refine List.pairwise_cons.mpr ⟨fun x _ => Nat.zero_le x, ?_⟩
  exact List.Pairwise.map _
    (fun a b hab => by
      simp only [Nat.shiftRight_eq_div_pow]
      exact Nat.div_le_div_right hab) hv

theorem getLastD_mem_of_ne_nil (l : List Nat) :
    l ≠ [] → ∀ d, l.getLastD d ∈ l := by
  induction l with
  | nil => intro h; exact absurd rfl h
  | cons a t ih =>
    intro _ d
    rw [List.getLastD_cons]
    rcases List.eq_nil_or_concat t with ht | _
    · subst ht; simp
    · rcases t with _ | ⟨b, t'⟩
      · simp
      · exact List.mem_cons_of_mem a (ih (by simp) a)

theorem chain_le_getLastD (l : List Nat) :
    ∀ a, List.Chain (· ≤ ·) a l → a ≤ l.getLastD a := by
  induction l with
  | nil => intro a _; simp
  | cons h rest ih =>
    intro a hc
    cases hc with
    | cons hah hcr =>
      have := ih h hcr
      rw [List.getLastD_cons]
      omega

theorem unaryGaps_length (hs : List Nat) :
    ∀ prev, List.Chain (· ≤ ·) prev hs →
      (unaryGaps prev hs).length = hs.length + (hs.getLastD prev - prev) := by
  induction hs with
  | nil => intro prev _; simp [unaryGaps]
  | cons h rest ih =>
    intro prev hc
    cases hc with
    | cons hph hcr =>
      have hlast := chain_le_getLastD rest h hcr
      simp only [unaryGaps, List.length_append, List.length_replicate,
        List.length_cons, ih h hcr, List.getLastD_cons]
      omega

theorem flatten_natToBits_length (lbl mask : Nat) (v : List Nat) :
    ((v.map fun x => natToBits lbl (x &&& mask)).flatten).length
      = v.length * lbl := by
  induction v with
  | nil => simp
  | cons x rest ih =>
    simp only [List.map_cons, List.flatten_cons, List.length_append,
      natToBits_length, List.length_cons, ih]
    ring

/-! ### Claim C1 -/

/-- C1.  For every sorted slice `v` of `u64` with `max(v) < U` (and nonempty:
`EliasFano::new(U, 0)` divides by zero in Rust whenever `U > 0`), encoding `v`
with `EliasFano::new(U, len(v))` followed by `encode(v)` yields a structure
where `get(i)` returns `v[i]` for every `i < len(v)`, and `get(i)` returns an
error (`none`) for every `i ≥ len(v)`. -/
theorem c1_ef_encode_then_get (U : Nat) (v : List Nat)
    (hne : 0 < v.length) (hv : List.Sorted (· ≤ ·) v)
    (hmax : ∀ x ∈ v, x < U) :
    (∀ i (hi : i < v.length),
        ((EliasFano.new U v.length).encode v).get i = some (v.get ⟨i, hi⟩))
    ∧ (∀ i, v.length ≤ i → ((EliasFano.new U v.length).encode v).get i = none) := by
  constructor
  · intro i hi
    exact EliasFano.get_encode U v hv i hi
  · intro i h
    have hsize : ((EliasFano.new U v.length).encode v).size = v.length := rfl
    simp only [EliasFano.get, hsize]
    rw [if_pos h]

/-- Witness for C1, at the spec's S1 input `v = [5,8,8,15,32]`, `U = 36`:
the hypotheses hold and `get` round-trips each element while `get 5` errors. -/
theorem c1_witness :
    ((EliasFano.new 36 ([5, 8, 8, 15, 32] : List Nat).length).encode
        [5, 8, 8, 15, 32]).get 3 = some 15
    ∧ ((EliasFano.new 36 ([5, 8, 8, 15, 32] : List Nat).length).encode
        [5, 8, 8, 15, 32]).get 5 = none := by
  have h := c1_ef_encode_then_get 36 [5, 8, 8, 15, 32]
    (by decide) (by decide) (by decide)
  exact ⟨h.1 3 (by decide), h.2 5 (by decide)⟩

/-! ### Claim C5 -/

/-- C5 counterexample.  `v = [4,4,4]`, `U = 5` is sorted with `max(v) < U`,
yet the encoding stores `7` bits while `N·L + 2N = 3·0 + 6 = 6`: the claimed
bound `N·L + 2N` fails on the code (the `L = ⌊log₂(U/N)⌋` choice only caps the
upper bit-vector by `3N`, not `2N`). -/
theorem c5_counterexample :
    List.Sorted (· ≤ ·) ([4, 4, 4] : List Nat)
    ∧ (∀ x ∈ ([4, 4, 4] : List Nat), x < 5)
    ∧ ((EliasFano.new 5 3).encode [4, 4, 4]).total_bits = 7
    ∧ ¬ ((EliasFano.new 5 3).encode [4, 4, 4]).total_bits
        ≤ 3 * (EliasFano.new 5 3).lower_bit_length + 2 * 3 := by
  exact ⟨by decide, by decide, by decide, by decide⟩

/-- C5 amended.  For every Elias–Fano encoding of `N` sorted values (`N ≥ 1`)
with universe `U < 2^64`, `max(v) < U`, and lower-bit width
`L = lower_bit_length`, the total number of stored bits (lower plus upper
bit-vector) is at most `N·L + 3N`.  (`N·L` lower bits, at most `N + (2N - 1)`
upper bits: `N` one-bits plus at most `2N - 1` zero gap bits.) -/
theorem c5_amended (U : Nat) (v : List Nat) (hne : 0 < v.length)
    (hv : List.Sorted (· ≤ ·) v) (hmax : ∀ x ∈ v, x < U) (hU : U < 2 ^ 64) :
    ((EliasFano.new U v.length).encode v).total_bits
      ≤ v.length * (EliasFano.new U v.length).lower_bit_length
        + 3 * v.length := by
  set N := v.length with hN
  set lbl := (EliasFano.new U N).lower_bit_length with hlbl
  have hchain := chain_highs lbl v hv
  have hlow : ((EliasFano.new U N).encode v).lower_bits.length = N * lbl := by
    rw [encode_new_lower, flatten_natToBits_length]
  have hup : ((EliasFano.new U N).encode v).upper_bits.length
      = N + (v.map (· >>> lbl)).getLastD 0 := by
    rw [encode_new_upper, unaryGaps_length _ 0 hchain]
    simp
  have hUb : U ≤ 2 * N * 2 ^ lbl := by
    rcases Nat.lt_or_ge N U with hNU | hUN
    · have hNpos : 0 < N := hne
      have hq1 : 1 ≤ U / N := (Nat.one_le_div_iff hNpos).mpr (by omega)
      have hqlt : U / N < 2 ^ 64 := Nat.lt_of_le_of_lt (Nat.div_le_self U N) hU
      have hlbl_eq : lbl = Nat.log 2 (U / N) := by
        rw [hlbl, new_lbl_of_lt U N hNU, msb_eq_log _ (by omega) hqlt]
      have hpow : U / N < 2 ^ (lbl + 1) := by
        rw [hlbl_eq]
        exact Nat.lt_pow_succ_log_self (by omega) _
      have hdm := Nat.div_add_mod U N
      have hmod : U % N < N := Nat.mod_lt _ (by omega)
      have hU1 : U < N * (U / N + 1) := by
        calc U = N * (U / N) + U % N := hdm.symm
        _ < N * (U / N) + N := by omega
        _ = N * (U / N + 1) := by ring
      have hU2 : N * (U / N + 1) ≤ N * 2 ^ (lbl + 1) :=
        Nat.mul_le_mul_left N (by omega)
      have hrw : N * 2 ^ (lbl + 1) = 2 * N * 2 ^ lbl := by
        rw [pow_succ]; ring
      omega
    · have hz : lbl = 0 := by rw [hlbl]; exact new_lbl_of_ge U N hUN
      rw [hz]
      simp
      omega
  have hlast : (v.map (· >>> lbl)).getLastD 0 < 2 * N := by
    have hvpos : 0 < v.length := by rw [← hN]; exact hne
    have hvne : v ≠ [] := by
      intro hcon
      rw [hcon] at hvpos
      exact absurd hvpos (by simp)
    have hmapne : v.map (· >>> lbl) ≠ [] := by
      simpa using hvne
    have hmem := getLastD_mem_of_ne_nil (v.map (· >>> lbl)) hmapne 0
    rcases List.mem_map.mp hmem with ⟨x, hxv, hxeq⟩
    have hxU : x < U := hmax x hxv
    have hxlt : x < 2 * N * 2 ^ lbl := by omega
    rw [← hxeq, Nat.shiftRight_eq_div_pow]
    rw [Nat.div_lt_iff_lt_mul (Nat.pos_pow_of_pos lbl (by omega))]
    calc x < 2 * N * 2 ^ lbl := hxlt
    _ = 2 * N * 2 ^ lbl := rfl
  simp only [EliasFano.total_bits, hlow, hup]
  omega

/-- Witness for C5 amended, at the S1 input: `total_bits = 23 ≤ 5·2 + 15`. -/
theorem c5_amended_witness :
    ((EliasFano.new 36 ([5, 8, 8, 15, 32] : List Nat).length).encode
        [5, 8, 8, 15, 32]).total_bits
      ≤ ([5, 8, 8, 15, 32] : List Nat).length
          * (EliasFano.new 36 ([5, 8, 8, 15, 32] : List Nat).length).lower_bit_length
        + 3 * ([5, 8, 8, 15, 32] : List Nat).length :=
  c5_amended 36 [5, 8, 8, 15, 32] (by decide) (by decide) (by decide) (by decide)

/-! ### Claim C6 -/

/-- C6.  `EliasFano::new(U, N)` chooses the lower width `L = ⌊log₂(U/N)⌋`
(for `u64`-sized `U`, i.e. `U < 2^64`; and `L = 0` when `U ≤ N`); `encode`
writes each value's lower `L` bits into the packed lower bit-vector and its
upper part in unary gap coding (`high[i] − high[i−1]` zero bits then a one
bit, with `high[-1] = 0`); for `v = [5,8,8,15,32]`, `U = 36` this gives
`L = 2`, lower-bit slots `{1,0,0,3,0}` and upper gaps `{1,1,0,1,5}`. -/
theorem c6_choice_and_layout :
    (∀ U N, 0 < N → N < U → U < 2 ^ 64 →
        (EliasFano.new U N).lower_bit_length = Nat.log 2 (U / N))
    ∧ (∀ U N, U ≤ N → (EliasFano.new U N).lower_bit_length = 0)
    ∧ (∀ (U : Nat) (v : List Nat), List.Sorted (· ≤ ·) v →
        ((EliasFano.new U v.length).encode v).lower_bits
          = (v.map fun x => natToBits (EliasFano.new U v.length).lower_bit_length
              (x &&& (EliasFano.new U v.length).lower_bit_mask)).flatten
        ∧ ((EliasFano.new U v.length).encode v).upper_bits
          = unaryGaps 0 (v.map (· >>> (EliasFano.new U v.length).lower_bit_length)))
    ∧ (EliasFano.new 36 5).lower_bit_length = 2
    ∧ ((List.range 5).map fun i =>
        loadBits ((((EliasFano.new 36 5).encode [5, 8, 8, 15, 32]).lower_bits.drop
          (i * 2)).take 2)) = [1, 0, 0, 3, 0]
    ∧ ((EliasFano.new 36 5).encode [5, 8, 8, 15, 32]).upper_bits
        = (([1, 1, 0, 1, 5] : List Nat).map fun g =>
            List.replicate g false ++ [true]).flatten := by
  refine ⟨?_, ?_, ?_, by decide, by decide, by decide⟩
  · intro U N hN hNU hU
    have hq1 : 1 ≤ U / N := (Nat.one_le_div_iff hN).mpr (by omega)
    have hqlt : U / N < 2 ^ 64 := Nat.lt_of_le_of_lt (Nat.div_le_self U N) hU
    rw [new_lbl_of_lt U N hNU, msb_eq_log _ (by omega) hqlt]
  · intro U N h
    exact new_lbl_of_ge U N h
  · intro U v _
    exact ⟨encode_new_lower U v, encode_new_upper U v⟩

/-- Witness for C6: the width rule applied at `U = 36`, `N = 5`. -/
theorem c6_witness :
    (EliasFano.new 36 5).lower_bit_length = Nat.log 2 (36 / 5) :=
  c6_choice_and_layout.1 36 5 (by decide) (by decide) (by decide)

/-! ### Dot-product kernel lemmas -/

theorem dotLoop_eq : ∀ (a b : List ℚ) (acc : ℚ),
    dotLoop a b acc = acc + dotProductSpec a b := by
  intro a
  induction a with
  | nil => intro b acc; cases b <;> simp [dotLoop, dotProductSpec]
  | cons x xs ih =>
    intro b acc
    cases b with
    | nil => simp [dotLoop, dotProductSpec]
    | cons y ys =>
      simp only [dotLoop, ih, dotProductSpec, List.zipWith_cons_cons,
        List.sum_cons]
      ring

theorem sum_zipWith_add (u v : List ℚ) (h : u.length = v.length) :
    (List.zipWith (· + ·) u v).sum = u.sum + v.sum := by
  induction u generalizing v with
  | nil => cases v <;> simp at h ⊢
  | cons x xs ih =>
    cases v with
    | nil => simp at h
    | cons y ys =>
      simp only [List.zipWith_cons_cons, List.sum_cons, ih ys (by simpa using h)]
      ring

theorem dot_split (a b : List ℚ) (n : Nat) :
    dotProductSpec a b
      = dotProductSpec (a.take n) (b.take n)
        + dotProductSpec (a.drop n) (b.drop n) := by
  unfold dotProductSpec
  rw [← List.take_zipWith, ← List.drop_zipWith, List.sum_take_add_sum_drop]

theorem accumulate_lanes_sum (lanes : Nat) (a b acc : List ℚ) :
    a.length = b.length → acc.length = lanes →
      (accumulate_lanes lanes a b acc).sum
        + dotProductSpec (a.drop (lanes * (a.length / lanes)))
            (b.drop (lanes * (b.length / lanes)))
        = acc.sum + dotProductSpec a b := by
  induction a, b, acc using accumulate_lanes.induct lanes with
  | case1 a b acc h ih =>
    intro hl hacc
    obtain ⟨hpos, hla, hlb⟩ := h
    rw [accumulate_lanes, dif_pos ⟨hpos, hla, hlb⟩]
    have hdiv : a.length / lanes = (a.length - lanes) / lanes + 1 :=
      Nat.div_eq_sub_div hpos hla
    have hdivb : b.length / lanes = (b.length - lanes) / lanes + 1 :=
      Nat.div_eq_sub_div hpos hlb
    have hdropa : a.drop (lanes * (a.length / lanes))
        = (a.drop lanes).drop (lanes * ((a.drop lanes).length / lanes)) := by
      rw [List.drop_drop, List.length_drop]
      congr 1
      rw [hdiv]
      ring
    have hdropb : b.drop (lanes * (b.length / lanes))
        = (b.drop lanes).drop (lanes * ((b.drop lanes).length / lanes)) := by
      rw [List.drop_drop, List.length_drop]
      congr 1
      rw [hdivb]
      ring
    have hlen' : (a.drop lanes).length = (b.drop lanes).length := by
      simp [hl]
    have htka : (a.take lanes).length = lanes := by
      rw [List.length_take]
      omega
    have htkb : (b.take lanes).length = lanes := by
      rw [List.length_take]
      omega
    have hacc' : (List.zipWith (· + ·) acc
        (List.zipWith (· * ·) (a.take lanes) (b.take lanes))).length = lanes := by
      simp only [List.length_zipWith, htka, htkb]
      omega
    have hih := ih hlen' hacc'
    rw [hdropa, hdropb, hih, sum_zipWith_add _ _ (by
      simp only [List.length_zipWith, htka, htkb]
      omega)]
    have hsplit := dot_split a b lanes
    have hmul : (List.zipWith (· * ·) (a.take lanes) (b.take lanes)).sum
        = dotProductSpec (a.take lanes) (b.take lanes) := rfl
    rw [hmul]
    linarith
  | case2 a b acc h =>
    intro hl _
    rw [accumulate_lanes, dif_neg h]
    have hX : lanes * (a.length / lanes) = 0 := by
      rcases Nat.eq_zero_or_pos lanes with h0 | hpos
      · simp [h0]
      · have hlt : a.length < lanes := by
          by_contra hc
          push_neg at hc
          exact h ⟨hpos, hc, hl ▸ hc⟩
        simp [Nat.div_eq_of_lt hlt]
    have hY : lanes * (b.length / lanes) = 0 := by
      rw [← hl]
      exact hX
    rw [hX, hY, List.drop_zero, List.drop_zero]

theorem simdStage_invariant (lanes : Nat) (st : ℚ × List ℚ × List ℚ)
    (hl : st.2.1.length = st.2.2.length) :
    ((simdStage lanes st).1
        + dotProductSpec (simdStage lanes st).2.1 (simdStage lanes st).2.2
      = st.1 + dotProductSpec st.2.1 st.2.2)
    ∧ (simdStage lanes st).2.1.length = (simdStage lanes st).2.2.length := by
  obtain ⟨res, a, b⟩ := st
  simp only at hl
  by_cases h : a.length > lanes
  · have hstage : simdStage lanes (res, a, b)
        = (res + (accumulate_lanes lanes a b (List.replicate lanes 0)).sum,
            a.drop (lanes * (a.length / lanes)),
            b.drop (lanes * (b.length / lanes))) := by
      unfold simdStage
      rw [if_pos h]
    rw [hstage]
    constructor
    · have hsum := accumulate_lanes_sum lanes a b (List.replicate lanes 0)
        hl (by simp)
      have hz : (List.replicate lanes (0 : ℚ)).sum = 0 := by simp
      rw [hz] at hsum
      simp only
      linarith
    · simp [hl]
  · have hstage : simdStage lanes (res, a, b) = (res, a, b) := by
      unfold simdStage
      rw [if_neg h]
    rw [hstage]
    exact ⟨rfl, hl⟩

theorem calculate_eq_neg_dot (a b : List ℚ) (hl : a.length = b.length) :
    DotProductDistanceCalculator.calculate a b = - dotProductSpec a b := by
  unfold DotProductDistanceCalculator.calculate
  have h16 := simdStage_invariant 16 (0, a, b) (by simpa using hl)
  have h8 := simdStage_invariant 8 _ h16.2
  have h4 := simdStage_invariant 4 _ h8.2
  simp only [neg_score]
  rw [dotLoop_eq]
  have hchain : (simdStage 4 (simdStage 8 (simdStage 16 (0, a, b)))).1
      + dotProductSpec (simdStage 4 (simdStage 8 (simdStage 16 (0, a, b)))).2.1
          (simdStage 4 (simdStage 8 (simdStage 16 (0, a, b)))).2.2
      = 0 + dotProductSpec a b := by
    rw [h4.1, h8.1, h16.1]
  simp only at hchain
  linarith

/-! ### Claim C9 -/

/-- C9.  For all equal-length `f32` slices `a`, `b` (exactly, over `ℚ`), both
the scalar kernel and the lane-cascade kernel of
`DotProductDistanceCalculator` return the negated dot product `−Σ aᵢbᵢ`;
consequently for any two unit-norm vectors in the same halfspace
(`Σ aᵢbᵢ ≥ 0`) the returned value is `≤ 0`.  (`calculate_scalar` needs no
length hypothesis: its loop and `Σ` both stop at the shorter slice.) -/
theorem c9_dot_product_negated :
    (∀ a b : List ℚ,
        DotProductDistanceCalculator.calculate_scalar a b = - dotProductSpec a b)
    ∧ (∀ a b : List ℚ, a.length = b.length →
        DotProductDistanceCalculator.calculate a b = - dotProductSpec a b)
    ∧ (∀ a b : List ℚ, a.length = b.length →
        dotProductSpec a a = 1 → dotProductSpec b b = 1 →
        0 ≤ dotProductSpec a b →
        DotProductDistanceCalculator.calculate a b ≤ 0) := by
  refine ⟨?_, ?_, ?_⟩
  · intro a b
    unfold DotProductDistanceCalculator.calculate_scalar neg_score
    rw [dotLoop_eq]
    ring
  · intro a b hl
    exact calculate_eq_neg_dot a b hl
  · intro a b hl _ _ hdot
    rw [calculate_eq_neg_dot a b hl]
    linarith

/-- Witness for C9: the unit vectors `a = b = [1]` point into the same
halfspace and the kernel returns `−1 ≤ 0`. -/
theorem c9_witness :
    DotProductDistanceCalculator.calculate [(1 : ℚ)] [(1 : ℚ)] ≤ 0 :=
  c9_dot_product_negated.2.2 [(1 : ℚ)] [(1 : ℚ)] rfl
    (by norm_num [dotProductSpec]) (by norm_num [dotProductSpec])
    (by norm_num [dotProductSpec])

/-! ### Claim C7 -/

/-- C7.  For every user id absent from both the in-memory `user_to_spann` map
and the mmap'd `user_index_info` hash table,
`MultiSpannIndex::search_with_id(user_id, query, k, ef, ctx)` returns no
result (`None`) rather than an error, and `MultiSpannIndex::search` without
an id behaves identically to `search_with_id(0, …)` on the same arguments. -/
theorem c7_multi_spann_unknown_user :
    (∀ (m : MultiSpannIndex) (id : Nat) (query : List ℚ)
        (k ef_construction : Nat),
        m.user_to_spann.lookup id = none →
        m.user_index_infos.lookup id = none →
        m.search_with_id id query k ef_construction = none)
    ∧ (∀ (m : MultiSpannIndex) (query : List ℚ) (k ef_construction : Nat),
        m.search query k ef_construction
          = m.search_with_id 0 query k ef_construction) := by
  constructor
  · intro m id query k ef h1 h2
    unfold MultiSpannIndex.search_with_id
    rw [h1, h2]
  · intro m query k ef
    rfl

/-- Witness for C7: a multi-SPANN with no cached users and an empty hash
table returns no result for user `7`. -/
theorem c7_witness :
    MultiSpannIndex.search_with_id
      { user_to_spann := [], user_index_infos := [],
        read_spann := fun _ => none }
      7 [1] 3 2 = none :=
  c7_multi_spann_unknown_user.1
    { user_to_spann := [], user_index_infos := [],
      read_spann := fun _ => none }
    7 [1] 3 2 rfl rfl

/-! ### Claim C8 -/

theorem lookup_mem {α β : Type} [BEq α] [LawfulBEq α] :
    ∀ (l : List (α × β)) (a : α) (b : β), l.lookup a = some b → (a, b) ∈ l := by
  intro l
  induction l with
  | nil => intro a b h; simp [List.lookup] at h
  | cons p t ih =>
    intro a b h
    obtain ⟨k, v⟩ := p
    rw [List.lookup] at h
    by_cases hk : a == k
    · rw [hk] at h
      simp only [Option.some.injEq] at h
      have : a = k := eq_of_beq hk
      subst this
      subst h
      exact List.mem_cons_self _ _
    · rw [Bool.eq_false_iff.mpr hk] at h
      exact List.mem_cons_of_mem _ (ih a b h)

theorem mapM_option_length {α β : Type} (f : α → Option β) :
    ∀ (l : List α) (res : List β), l.mapM f = some res → res.length = l.length := by
  intro l
  induction l with
  | nil =>
    intro res h
    simp only [List.mapM_nil, pure, Option.some.injEq] at h
    subst h
    rfl
  | cons a t ih =>
    intro res h
    rw [List.mapM_cons] at h
    cases hfa : f a with
    | none => rw [hfa] at h; simp at h
    | some b =>
      rw [hfa] at h
      cases hmt : t.mapM f with
      | none => rw [hmt] at h; simp at h
      | some bs =>
        rw [hmt] at h
        have hres : res = b :: bs := by
          have := h.symm
          simpa using this
        subst hres
        simp [ih bs hmt]

/-- C8.  `CollectionReader::read` resolves the latest version as the maximum
`N` for which a `version_N` file exists, loads that version's TOC, and builds
a snapshot containing one segment per TOC entry; for S5
(`version_0 = {seg1}`, `version_1 = {seg1, seg2}`) the opened collection has
`current_version = 1` and a snapshot with 2 segments.  The segment values in
the S5 instance are trivial Multi-SPANN indexes; only their count matters. -/
theorem c8_collection_read :
    (∀ (dir : CollectionDir) (c : Collection),
        CollectionReader.read dir = some c →
          (c.current_version, c.toc) ∈ dir.versions
          ∧ (∀ w ∈ dir.versions.map Prod.fst, w ≤ c.current_version)
          ∧ c.segments.length = c.toc.toc.length)
    ∧ ((CollectionReader.read
          { versions := [(0, { toc := ["seg1"] }),
                         (1, { toc := ["seg1", "seg2"] })]
            segments :=
              [("seg1", ({ user_to_spann := [], user_index_infos := [],
                           read_spann := fun _ => none } : Segment)),
               ("seg2", ({ user_to_spann := [], user_index_infos := [],
                           read_spann := fun _ => none } : Segment))] }).map
        (fun c => (c.current_version, c.segments.length)) = some (1, 2)) := by
  constructor
  · intro dir c hread
    unfold CollectionReader.read at hread
    cases hglv : get_latest_version dir with
    | none => simp only [hglv] at hread; exact absurd hread (by simp)
    | some v =>
      simp only [hglv] at hread
      cases hlk : dir.versions.lookup v with
      | none => simp only [hlk] at hread; exact absurd hread (by simp)
      | some table =>
        simp only [hlk] at hread
        cases hmm : table.toc.mapM (fun name => dir.segments.lookup name) with
        | none => simp only [hmm] at hread; exact absurd hread (by simp)
        | some segs =>
          simp only [hmm] at hread
          simp only [Option.some.injEq] at hread
          subst hread
          have hmax := List.maximum?_eq_some_iff'.mp hglv
          refine ⟨lookup_mem dir.versions v table hlk, ?_, ?_⟩
          · intro w hw
            exact hmax.2 w hw
          · exact mapM_option_length _ table.toc segs hmm
  · rfl

/-- Witness for C8: the general reader contract applied to the concrete S5
directory shows version 1's TOC is the one loaded. -/
theorem c8_witness :
    ((1 : Nat), ({ toc := ["seg1", "seg2"] } : TableOfContent)) ∈
      [((0 : Nat), ({ toc := ["seg1"] } : TableOfContent)),
       ((1 : Nat), ({ toc := ["seg1", "seg2"] } : TableOfContent))] := by
  have h := c8_collection_read.1
    { versions := [(0, { toc := ["seg1"] }), (1, { toc := ["seg1", "seg2"] })]
      segments :=
        [("seg1", ({ user_to_spann := [], user_index_infos := [],
                     read_spann := fun _ => none } : Segment)),
         ("seg2", ({ user_to_spann := [], user_index_infos := [],
                     read_spann := fun _ => none } : Segment))] }
    { current_version := 1, toc := { toc := ["seg1", "seg2"] }
      segments :=
        [({ user_to_spann := [], user_index_infos := [],
            read_spann := fun _ => none } : Segment),
         ({ user_to_spann := [], user_index_infos := [],
            read_spann := fun _ => none } : Segment)] }
    rfl
  exact h.1

/-! ### Claim C4 -/

theorem scan_foldl_eq (g : Nat → Option (List ℚ)) (q : List ℚ) :
    ∀ (list : List Nat) (acc : List IdWithScore),
      list.foldl (fun results idx =>
        match g idx with
        | some vector => results ++ [{ score := l2_sq vector q, id := idx }]
        | none => results) acc
      = acc ++ list.filterMap (fun idx =>
          (g idx).map fun vector => { score := l2_sq vector q, id := idx }) := by
  intro list
  induction list with
  | nil => intro acc; simp
  | cons i t ih =>
    intro acc
    rw [List.foldl_cons]
    cases hg : g i with
    | none =>
      simp only [hg]
      rw [ih]
      simp [List.filterMap_cons, hg]
    | some vec =>
      simp only [hg]
      rw [ih]
      simp [List.filterMap_cons, hg]

/-- C4 counterexample.  `scan_posting_list` does not signal IndexCorrupt for
missing centroid data: in an index whose only posting-list directory entry is
corrupt, `get_posting_list 0` fails, yet the scan returns the ordinary empty
vector — the very same value a valid empty posting list produces — and the
return type `Vec<IdWithScore>` carries no failure at all. -/
theorem c4_counterexample :
    (({ header_num_clusters := 1, centroids := [[0]],
        posting_lists := [none] } : FixedIndexFile).get_posting_list 0 = none)
    ∧ (Ivf.scan_posting_list
        { vector_storage := { vectors := [some [0]] },
          index_storage := { header_num_clusters := 1, centroids := [[0]],
                             posting_lists := [none] },
          num_clusters := 1 } 0 [0] = [])
    ∧ (Ivf.scan_posting_list
        { vector_storage := { vectors := [some [0]] },
          index_storage := { header_num_clusters := 1, centroids := [[0]],
                             posting_lists := [some []] },
          num_clusters := 1 } 0 [0] = []) :=
  ⟨rfl, rfl, rfl⟩

/-- C4 amended.  During posting-list scanning, a `get_posting_list` failure
(missing centroid data: out-of-range centroid index or corrupt offset) is
swallowed: `scan_posting_list` returns the empty result instead of signaling
IndexCorrupt; a vector-storage miss for a local id referenced by the posting
list is skipped silently — the scan emits results exactly for the
retrievable vectors, in posting-list order; and an empty result list is a
valid non-error outcome. -/
theorem c4_amended (ivf : Ivf) (centroid : Nat) (query : List ℚ) :
    (ivf.index_storage.get_posting_list centroid = none →
      ivf.scan_posting_list centroid query = [])
    ∧ (∀ list, ivf.index_storage.get_posting_list centroid = some list →
        ivf.scan_posting_list centroid query
          = list.filterMap (fun idx =>
              (ivf.vector_storage.get idx).map
                fun vector => { score := l2_sq vector query, id := idx })) := by
  constructor
  · intro h
    unfold Ivf.scan_posting_list
    rw [h]
  · intro list h
    unfold Ivf.scan_posting_list
    simp only [h]
    rw [scan_foldl_eq (ivf.vector_storage.get) query list []]
    simp

/-- Witness for C4 amended: a posting list `[0, 5]` over a one-row vector
storage emits only the retrievable row `0` and silently skips row `5`. -/
theorem c4_witness :
    Ivf.scan_posting_list
      { vector_storage := { vectors := [some [1]] },
        index_storage := { header_num_clusters := 1, centroids := [[0]],
                           posting_lists := [some [0, 5]] },
        num_clusters := 1 } 0 [0]
      = [{ score := 1, id := 0 }] := by
  have h := (c4_amended
    { vector_storage := { vectors := [some [1]] },
      index_storage := { header_num_clusters := 1, centroids := [[0]],
                         posting_lists := [some [0, 5]] },
      num_clusters := 1 } 0 [0]).2 [0, 5] rfl
  rw [h]
  norm_num [List.filterMap_cons, FixedFileVectorStorage.get, l2_sq]

/-! ### Claim C10 -/

theorem mapM_option_congr {α β : Type} (g : α → Option β) (h : α → β) :
    ∀ l : List α, (∀ a ∈ l, g a = some (h a)) → l.mapM g = some (l.map h) := by
  intro l
  induction l with
  | nil => intro _; rfl
  | cons a t ih =>
    intro hall
    rw [List.mapM_cons, hall a (List.mem_cons_self a t),
      ih (fun x hx => hall x (List.mem_cons_of_mem a hx))]
    rfl

theorem computeDistances_wf (f : FixedIndexFile) (query : List ℚ)
    (hwf : f.centroids.length = f.header_num_clusters) :
    computeDistances query f
      = some ((List.range f.header_num_clusters).map
          (fun i => (i, l2_sq query (f.centroids.getD i [])))) := by
  unfold computeDistances
  apply mapM_option_congr
  intro i hi
  have hilt : i < f.centroids.length := by
    rw [hwf]
    exact List.mem_range.mp hi
  unfold FixedIndexFile.get_centroid
  rw [List.getElem?_eq_getElem hilt]
  simp [List.getD_eq_getElem?_getD, List.getElem?_eq_getElem hilt]

/-- C10.  With every centroid present (a well-formed index file),
`Ivf::find_nearest_centroids` is total exactly for
`1 ≤ num_probes ≤ num_clusters`: the call
`select_nth_unstable_by(num_probes - 1, …)` panics — reaching the
embedding's error branch — when `num_probes = 0` (`usize` underflow) or when
`num_probes` exceeds the number of centroids (selection index out of range),
even though the spec's search contract places no such bound on `P`. -/
theorem c10_find_nearest_partiality (f : FixedIndexFile) (query : List ℚ)
    (P : Nat) (hwf : f.centroids.length = f.header_num_clusters) :
    Ivf.find_nearest_centroids query f P = none
      ↔ P = 0 ∨ f.header_num_clusters < P := by
  unfold Ivf.find_nearest_centroids
  simp only [computeDistances_wf f query hwf]
  have hlen : ((List.range f.header_num_clusters).map
      (fun i => (i, l2_sq query (f.centroids.getD i [])))).length
      = f.header_num_clusters := by
    simp
  by_cases h0 : P = 0
  · simp [h0]
  · rw [if_neg h0]
    by_cases h1 : ((List.range f.header_num_clusters).map
        (fun i => (i, l2_sq query (f.centroids.getD i [])))).length ≤ P - 1
    · rw [if_pos h1]
      rw [hlen] at h1
      simp only [true_iff]
      right
      omega
    · rw [if_neg h1]
      rw [hlen] at h1
      constructor
      · intro hc
        exact absurd hc (by simp)
      · intro hc
        rcases hc with hc | hc
        · exact absurd hc h0
        · omega

/-- Witness for C10: a single-centroid index errors at `P = 0` and `P = 2`
and succeeds at `P = 1`. -/
theorem c10_witness :
    Ivf.find_nearest_centroids [0]
      { header_num_clusters := 1, centroids := [[0]],
        posting_lists := [some []] } 0 = none
    ∧ Ivf.find_nearest_centroids [0]
      { header_num_clusters := 1, centroids := [[0]],
        posting_lists := [some []] } 2 = none
    ∧ Ivf.find_nearest_centroids [0]
      { header_num_clusters := 1, centroids := [[0]],
        posting_lists := [some []] } 1 ≠ none := by
  refine ⟨?_, ?_, ?_⟩
  · exact (c10_find_nearest_partiality _ [0] 0 rfl).mpr (Or.inl rfl)
  · exact (c10_find_nearest_partiality _ [0] 2 rfl).mpr (Or.inr (by decide))
  · intro hc
    rcases (c10_find_nearest_partiality _ [0] 1 rfl).mp hc with h | h
    · exact absurd h (by decide)
    · exact absurd h (by decide)

/-! ### Claim C3 -/

theorem sorted_partition_unique :
    ∀ (A₁ B₁ A₂ B₂ : List (Nat × ℚ)),
      (A₁ ++ B₁).Perm (A₂ ++ B₂) →
      A₁.length = A₂.length →
      List.Sorted distCmpLe A₁ → List.Sorted distCmpLe A₂ →
      (∀ p ∈ A₁, ∀ q ∈ B₁, p.2 ≤ q.2) →
      (∀ p ∈ A₂, ∀ q ∈ B₂, p.2 ≤ q.2) →
      List.Pairwise (fun p q : Nat × ℚ => p.2 ≠ q.2) (A₁ ++ B₁) →
      A₁ = A₂ := by
  intro A₁
  induction A₁ with
  | nil =>
    intro B₁ A₂ B₂ _ hlen _ _ _ _ _
    exact (List.eq_nil_of_length_eq_zero hlen.symm).symm
  | cons a t ih =>
    intro B₁ A₂ B₂ hperm hlen hs1 hs2 hle1 hle2 hnd
    cases A₂ with
    | nil => exact absurd hlen (by simp)
    | cons b t₂ =>
      have hamin : ∀ z ∈ (a :: t) ++ B₁, a.2 ≤ z.2 := by
        intro z hz
        rcases List.mem_append.mp hz with hz | hz
        · rcases List.mem_cons.mp hz with rfl | hz
          · exact le_refl _
          · exact (List.sorted_cons.mp hs1).1 z hz
        · exact hle1 a (List.mem_cons_self a t) z hz
      have hbmin : ∀ z ∈ (b :: t₂) ++ B₂, b.2 ≤ z.2 := by
        intro z hz
        rcases List.mem_append.mp hz with hz | hz
        · rcases List.mem_cons.mp hz with rfl | hz
          · exact le_refl _
          · exact (List.sorted_cons.mp hs2).1 z hz
        · exact hle2 b (List.mem_cons_self b t₂) z hz
      have hbmem : b ∈ (a :: t) ++ B₁ := hperm.mem_iff.mpr (by simp)
      have hamem : a ∈ (b :: t₂) ++ B₂ := hperm.mem_iff.mp (by simp)
      have hab2 : a.2 = b.2 := le_antisymm (hamin b hbmem) (hbmin a hamem)
      have hab : a = b := by
        by_contra hne
        have hbmem2 : b ∈ t ++ B₁ := by
          rcases List.mem_cons.mp hbmem with h | h
          · exact absurd h.symm hne
          · exact h
        exact (List.pairwise_cons.mp hnd).1 b hbmem2 hab2
      subst hab
      have hperm2 : (t ++ B₁).Perm (t₂ ++ B₂) := hperm.cons_inv
      rw [ih B₁ t₂ B₂ hperm2 (by simpa using hlen) hs1.of_cons hs2.of_cons
        (fun p hp q hq => hle1 p (List.mem_cons_of_mem a hp) q hq)
        (fun p hp q hq => hle2 p (List.mem_cons_of_mem a hp) q hq)
        (List.pairwise_cons.mp hnd).2]

theorem find_nearest_rel_elim (f : FixedIndexFile) (query : List ℚ) (P : Nat)
    (out : Option (List Nat))
    (hwf : f.centroids.length = f.header_num_clusters)
    (hP1 : 1 ≤ P) (hP2 : P ≤ f.header_num_clusters)
    (hrel : Ivf.find_nearest_centroids_rel query f P out) :
    ∃ selected nearest_sorted,
      selectNthBySpec distCmpLe (P - 1)
        ((List.range f.header_num_clusters).map
          (fun i => (i, l2_sq query (f.centroids.getD i [])))) selected ∧
      sortByDistSpec (selected.take P) nearest_sorted ∧
      out = some (nearest_sorted.map Prod.fst) := by
  unfold Ivf.find_nearest_centroids_rel at hrel
  simp only [computeDistances_wf f query hwf] at hrel
  rw [if_neg (by omega)] at hrel
  rw [if_neg (by simp; omega)] at hrel
  exact hrel

theorem find_nearest_rel_spec (f : FixedIndexFile) (query : List ℚ) (P : Nat)
    (out : Option (List Nat))
    (hwf : f.centroids.length = f.header_num_clusters)
    (hP1 : 1 ≤ P) (hP2 : P ≤ f.header_num_clusters)
    (hrel : Ivf.find_nearest_centroids_rel query f P out) :
    ∃ chosen rest,
      out = some (chosen.map Prod.fst)
      ∧ chosen.length = P
      ∧ List.Sorted distCmpLe chosen
      ∧ (chosen ++ rest).Perm
          ((List.range f.header_num_clusters).map
            (fun i => (i, l2_sq query (f.centroids.getD i []))))
      ∧ (∀ p ∈ chosen, ∀ q ∈ rest, p.2 ≤ q.2) := by
  obtain ⟨sel, ns, ⟨hperm, m, hm, hbef, haft⟩, ⟨hnsp, hnss⟩, hout⟩ :=
    find_nearest_rel_elim f query P out hwf hP1 hP2 hrel
  have hselen : sel.length = f.header_num_clusters := by
    have := hperm.length_eq
    simpa using this
  refine ⟨ns, sel.drop P, hout, ?_, hnss, ?_, ?_⟩
  · have := hnsp.length_eq
    rw [this, List.length_take]
    omega
  · have h1 : (ns ++ sel.drop P).Perm (sel.take P ++ sel.drop P) :=
      hnsp.append_right (sel.drop P)
    rw [List.take_append_drop] at h1
    exact h1.trans hperm
  · intro p hp q hq
    have hpin : p ∈ sel.take P := hnsp.subset hp
    have hPsucc : P = (P - 1) + 1 := by omega
    have htake : sel.take P = sel.take (P - 1) ++ [m] := by
      conv_lhs => rw [hPsucc]
      rw [List.take_succ, hm]
      rfl
    have hq2 : q ∈ sel.drop ((P - 1) + 1) := by
      rw [← hPsucc]
      exact hq
    have hmq : m.2 ≤ q.2 := haft q hq2
    rw [htake] at hpin
    rcases List.mem_append.mp hpin with hp1 | hp1
    · exact le_trans (hbef p hp1) hmq
    · have hpm : p = m := by simpa using hp1
      rw [hpm]
      exact hmq

theorem find_nearest_rel_distinct (f : FixedIndexFile) (query : List ℚ)
    (P : Nat) (out : Option (List Nat))
    (hwf : f.centroids.length = f.header_num_clusters)
    (hP1 : 1 ≤ P) (hP2 : P ≤ f.header_num_clusters)
    (hdist : List.Pairwise (fun p q : Nat × ℚ => p.2 ≠ q.2)
      ((List.range f.header_num_clusters).map
        (fun i => (i, l2_sq query (f.centroids.getD i [])))))
    (hrel : Ivf.find_nearest_centroids_rel query f P out) :
    out = some (((List.insertionSort distIdLexLe
        ((List.range f.header_num_clusters).map
          (fun i => (i, l2_sq query (f.centroids.getD i []))))).take P).map
      Prod.fst) := by
  obtain ⟨chosen, rest, hout, hlen, hsorted, hperm, hcross⟩ :=
    find_nearest_rel_spec f query P out hwf hP1 hP2 hrel
  set ds := (List.range f.header_num_clusters).map
    (fun i => (i, l2_sq query (f.centroids.getD i []))) with hds
  set S := List.insertionSort distIdLexLe ds with hS
  have hSperm : S.Perm ds := List.perm_insertionSort _ ds
  have hSsortedLex : List.Sorted distIdLexLe S := List.sorted_insertionSort _ ds
  have hSsorted : List.Sorted distCmpLe S := by
    apply hSsortedLex.imp
    intro x y hxy
    rcases hxy with h | ⟨h, _⟩
    · exact le_of_lt h
    · exact le_of_eq h
  have hdslen : ds.length = f.header_num_clusters := by
    rw [hds]
    simp
  have hSlen : S.length = ds.length := hSperm.length_eq
  have hchosen : chosen = S.take P := by
    refine sorted_partition_unique chosen rest (S.take P) (S.drop P)
      ?_ ?_ hsorted ?_ hcross ?_ ?_
    · rw [List.take_append_drop]
      exact hperm.trans hSperm.symm
    · rw [hlen, List.length_take]
      omega
    · exact hSsorted.sublist (List.take_sublist P S)
    · have h2 := hSsorted
      rw [← List.take_append_drop P S] at h2
      obtain ⟨-, -, h3⟩ := List.pairwise_append.mp h2
      exact fun p hp q hq => h3 p hp q hq
    · exact (hperm.pairwise_iff (fun hxy => Ne.symm hxy)).mpr hdist
  rw [hout, hchosen]

theorem find_nearest_centroids_refines (vector : List ℚ)
    (f : FixedIndexFile) (P : Nat) :
    Ivf.find_nearest_centroids_rel vector f P
      (Ivf.find_nearest_centroids vector f P) := by
  unfold Ivf.find_nearest_centroids_rel Ivf.find_nearest_centroids
  cases hcd : computeDistances vector f with
  | none => rfl
  | some ds =>
    by_cases h0 : P = 0
    · simp only [if_pos h0]
    · simp only [if_neg h0]
      by_cases h1 : ds.length ≤ P - 1
      · simp only [if_pos h1]
      · simp only [if_neg h1]
        have hSsorted : List.Sorted distCmpLe (List.insertionSort distCmpLe ds) :=
          List.sorted_insertionSort distCmpLe ds
        have hSlen : (List.insertionSort distCmpLe ds).length = ds.length :=
          (List.perm_insertionSort distCmpLe ds).length_eq
        have hlt : P - 1 < (List.insertionSort distCmpLe ds).length := by omega
        refine ⟨List.insertionSort distCmpLe ds,
          List.insertionSort distCmpLe
            ((List.insertionSort distCmpLe ds).take P),
          ⟨List.perm_insertionSort distCmpLe ds,
            (List.insertionSort distCmpLe ds).get ⟨P - 1, hlt⟩, ?_, ?_, ?_⟩,
          ⟨List.perm_insertionSort distCmpLe _,
            List.sorted_insertionSort distCmpLe _⟩, rfl⟩
        · rw [List.getElem?_eq_getElem hlt]
          rfl
        · intro x hx
          have h2 := hSsorted
          rw [← List.take_append_drop (P - 1) (List.insertionSort distCmpLe ds)]
            at h2
          obtain ⟨-, -, h3⟩ := List.pairwise_append.mp h2
          refine h3 x hx _ ?_
          rw [List.drop_eq_getElem_cons hlt]
          exact List.mem_cons_self _ _
        · intro x hx
          have h2 := hSsorted
          rw [← List.take_append_drop P (List.insertionSort distCmpLe ds)] at h2
          obtain ⟨-, -, h3⟩ := List.pairwise_append.mp h2
          refine h3 _ ?_ x ?_
          · have htake : (List.insertionSort distCmpLe ds).take P
                = (List.insertionSort distCmpLe ds).take (P - 1)
                  ++ [(List.insertionSort distCmpLe ds).get ⟨P - 1, hlt⟩] := by
              conv_lhs => rw [show P = (P - 1) + 1 by omega]
              rw [List.take_succ, List.getElem?_eq_getElem hlt]
              simp
            rw [htake]
            exact List.mem_append_right _ (List.mem_cons_self _ _)
          · have hP : (P - 1) + 1 = P := by omega
            rw [hP] at hx
            exact hx

theorem s3_rel_some_outcome :
    Ivf.find_nearest_centroids_rel [3, 4, 5]
      { header_num_clusters := 3,
        centroids := [[1, 2, 3], [4, 5, 6], [7, 8, 9]],
        posting_lists := [some [0], some [1], some [2]] } 2 (some [1, 0]) := by
  have h := find_nearest_centroids_refines [3, 4, 5]
    { header_num_clusters := 3,
      centroids := [[1, 2, 3], [4, 5, 6], [7, 8, 9]],
      posting_lists := [some [0], some [1], some [2]] } 2
  have he : Ivf.find_nearest_centroids [3, 4, 5]
      { header_num_clusters := 3,
        centroids := [[1, 2, 3], [4, 5, 6], [7, 8, 9]],
        posting_lists := [some [0], some [1], some [2]] } 2 = some [1, 0] := by
    norm_num [Ivf.find_nearest_centroids, computeDistances,
      FixedIndexFile.get_centroid, l2_sq, List.range_succ,
      List.insertionSort, List.orderedInsert, List.mapM, List.mapM.loop,
      Option.map, List.getElem?_cons, distCmpLe]
  rwa [he] at h

/-- C3 counterexample.  The claimed lower-centroid-id tie-break is not a
guarantee of the program: with two centroids at exactly equal distance from
the query and `num_probes = 1`, the documented contract of
`select_nth_unstable_by` (distance-only comparator, order among equal
elements unspecified) admits the outcome `[1]`, whereas the claimed
tie-break demands `[0]`, the first entry of the `(distance, id)`
lexicographic ranking. -/
theorem c3_counterexample :
    Ivf.find_nearest_centroids_rel [0]
      { header_num_clusters := 2, centroids := [[0], [0]],
        posting_lists := [some [], some []] } 1 (some [1])
    ∧ (((List.insertionSort distIdLexLe
        ((List.range 2).map
          (fun i => (i, l2_sq [0]
            (([[0], [0]] : List (List ℚ)).getD i []))))).take 1).map
        Prod.fst) = [0]
    ∧ ([1] : List Nat) ≠ [0] := by
  refine ⟨?_, ?_, by decide⟩
  · have hcd : computeDistances [0]
        { header_num_clusters := 2, centroids := [[0], [0]],
          posting_lists := [some [], some []] }
        = some [(0, 0), (1, 0)] := by
      norm_num [computeDistances, FixedIndexFile.get_centroid, l2_sq,
        List.range_succ, List.mapM, List.mapM.loop, Option.map,
        List.getElem?_cons]
    unfold Ivf.find_nearest_centroids_rel
    simp only [hcd]
    rw [if_neg (by decide), if_neg (by simp)]
    refine ⟨[(1, 0), (0, 0)], [(1, 0)],
      ⟨List.Perm.swap (0, 0) (1, 0) [], (1, 0), rfl, ?_, ?_⟩,
      ⟨List.Perm.refl _, ?_⟩, rfl⟩
    · intro x hx
      simp at hx
    · intro x hx
      have hx0 : x = ((0 : Nat), (0 : ℚ)) := by simpa using hx
      rw [hx0]
      exact le_refl _
    · exact List.sorted_singleton _
  · norm_num [List.range_succ, l2_sq, List.insertionSort,
      List.orderedInsert, distIdLexLe]

/-- C3, corrected.  Over the documented contract of the unstable selection
(`Ivf.find_nearest_centroids_rel`), for every query and every `num_probes = P`
with `1 ≤ P ≤ num_clusters` on a well-formed index: every admissible result
is `some` list of `P` centroid ids sorted ascending by distance whose
underlying `(id, distance)` pairs, together with some remainder, repartition
all centroids with every selected distance at most every rejected distance;
when the centroid distances are pairwise distinct the result is moreover
exactly the first `P` entries of the `(distance, id)`-lexicographic ranking;
and for S3's three centroids (whose distances `12, 3, 48` are distinct) with
`P = 2`, every admissible result is `[1, 0]`.  The claim's lower-id
tie-break among equal distances is not guaranteed by the program
(`c3_counterexample`).  (Distances are squared L2 over `ℚ`, an
order-preserving substitute for the `f32` square root.) -/
theorem c3_contract_nearest_centroids :
    (∀ (f : FixedIndexFile) (query : List ℚ) (P : Nat)
        (out : Option (List Nat)),
        f.centroids.length = f.header_num_clusters →
        1 ≤ P → P ≤ f.header_num_clusters →
        Ivf.find_nearest_centroids_rel query f P out →
        ∃ chosen rest,
          out = some (chosen.map Prod.fst)
          ∧ chosen.length = P
          ∧ List.Sorted distCmpLe chosen
          ∧ (chosen ++ rest).Perm
              ((List.range f.header_num_clusters).map
                (fun i => (i, l2_sq query (f.centroids.getD i []))))
          ∧ (∀ p ∈ chosen, ∀ q ∈ rest, p.2 ≤ q.2))
    ∧ (∀ (f : FixedIndexFile) (query : List ℚ) (P : Nat)
        (out : Option (List Nat)),
        f.centroids.length = f.header_num_clusters →
        1 ≤ P → P ≤ f.header_num_clusters →
        List.Pairwise (fun p q : Nat × ℚ => p.2 ≠ q.2)
          ((List.range f.header_num_clusters).map
            (fun i => (i, l2_sq query (f.centroids.getD i [])))) →
        Ivf.find_nearest_centroids_rel query f P out →
        out = some (((List.insertionSort distIdLexLe
            ((List.range f.header_num_clusters).map
              (fun i => (i, l2_sq query (f.centroids.getD i []))))).take
          P).map Prod.fst))
    ∧ (∀ out : Option (List Nat),
        Ivf.find_nearest_centroids_rel [3, 4, 5]
          { header_num_clusters := 3,
            centroids := [[1, 2, 3], [4, 5, 6], [7, 8, 9]],
            posting_lists := [some [0], some [1], some [2]] } 2 out →
        out = some [1, 0]) := by
  refine ⟨fun f q P out hwf h1 h2 hrel =>
      find_nearest_rel_spec f q P out hwf h1 h2 hrel,
    fun f q P out hwf h1 h2 hd hrel =>
      find_nearest_rel_distinct f q P out hwf h1 h2 hd hrel, ?_⟩
  intro out hrel
  have hd : List.Pairwise (fun p q : Nat × ℚ => p.2 ≠ q.2)
      ((List.range 3).map
        (fun i => (i, l2_sq [3, 4, 5]
          (([[1, 2, 3], [4, 5, 6], [7, 8, 9]] :
            List (List ℚ)).getD i [])))) := by
    norm_num [List.range_succ, l2_sq, List.pairwise_cons]
  have hout := find_nearest_rel_distinct
    { header_num_clusters := 3,
      centroids := [[1, 2, 3], [4, 5, 6], [7, 8, 9]],
      posting_lists := [some [0], some [1], some [2]] }
    [3, 4, 5] 2 out rfl (by decide) (by decide) hd hrel
  rw [hout]
  norm_num [List.range_succ, l2_sq, List.insertionSort, List.orderedInsert,
    distIdLexLe]

/-- Witness for C3 corrected: the contract guarantees at the S3 index,
`P = 2`, at the admissible outcome `[1, 0]` (produced, e.g., by the fully
distance-sorted selection, `s3_rel_some_outcome`). -/
theorem c3_contract_witness :
    ∃ chosen rest,
      (some [1, 0] : Option (List Nat)) = some (chosen.map Prod.fst)
      ∧ chosen.length = 2
      ∧ List.Sorted distCmpLe chosen
      ∧ (chosen ++ rest).Perm
          ((List.range 3).map
            (fun i => (i, l2_sq [3, 4, 5]
              (([[1, 2, 3], [4, 5, 6], [7, 8, 9]] :
                List (List ℚ)).getD i []))))
      ∧ (∀ p ∈ chosen, ∀ q ∈ rest, p.2 ≤ q.2) :=
  c3_contract_nearest_centroids.1
    { header_num_clusters := 3,
      centroids := [[1, 2, 3], [4, 5, 6], [7, 8, 9]],
      posting_lists := [some [0], some [1], some [2]] }
    [3, 4, 5] 2 (some [1, 0]) rfl (by decide) (by decide) s3_rel_some_outcome

/-! ### Claim C2 -/

theorem idws_le_of_lt (x y : IdWithScore) :
    IdWithScore.lt x y → IdWithScore.le x y := by
  intro h
  rcases h with h | ⟨h, h'⟩
  · exact Or.inl h
  · exact Or.inr ⟨h, le_of_lt h'⟩

theorem idws_not_lt (x y : IdWithScore) :
    ¬ IdWithScore.lt x y ↔ IdWithScore.le y x := by
  unfold IdWithScore.lt IdWithScore.le
  push_neg
  constructor
  · rintro ⟨h1, h2⟩
    rcases lt_or_eq_of_le h1 with h | h
    · exact Or.inl h
    · exact Or.inr ⟨h, h2 h.symm⟩
  · rintro (h | ⟨h, h'⟩)
    · refine ⟨le_of_lt h, fun hc => ?_⟩
      exact absurd h (by rw [hc]; exact lt_irrefl _)
    · exact ⟨le_of_eq h, fun _ => h'⟩

theorem sorted_le_getLast :
    ∀ (l : List IdWithScore), List.Sorted IdWithScore.le l →
      ∀ m, l.getLast? = some m → ∀ z ∈ l, IdWithScore.le z m := by
  intro l
  induction l with
  | nil => intro _ m hm; simp at hm
  | cons y t ih =>
    intro hs m hm z hz
    rcases List.sorted_cons.mp hs with ⟨hy, ht⟩
    cases t with
    | nil =>
      simp only [List.getLast?_singleton, Option.some.injEq] at hm
      rcases List.mem_singleton.mp hz with rfl
      rw [← hm]
      exact Or.inr ⟨rfl, le_refl _⟩
    | cons w t' =>
      have hm' : (w :: t').getLast? = some m := by
        simpa [List.getLast?_cons_cons] using hm
      rcases List.mem_cons.mp hz with rfl | hzt
      · exact hy m (List.mem_of_mem_getLast? hm')
      · exact ih ht m hm' z hzt

theorem orderedInsert_take_take (x : IdWithScore) :
    ∀ (l : List IdWithScore) (k : Nat),
      ((l.take k).orderedInsert IdWithScore.le x).take k
        = (l.orderedInsert IdWithScore.le x).take k := by
  intro l
  induction l with
  | nil => intro k; simp
  | cons y t ih =>
    intro k
    cases k with
    | zero => simp
    | succ n =>
      rw [List.take_succ_cons]
      by_cases h : IdWithScore.le x y
      · rw [List.orderedInsert, if_pos h, List.orderedInsert, if_pos h,
          List.take_succ_cons, List.take_succ_cons]
        congr 1
        cases n with
        | zero => simp
        | succ j =>
          rw [List.take_succ_cons, List.take_succ_cons]
          congr 1
          rw [List.take_take]
          congr 1
          omega
      · rw [List.orderedInsert, if_neg h, List.orderedInsert, if_neg h,
          List.take_succ_cons, List.take_succ_cons]
        congr 1
        exact ih n

theorem orderedInsert_dropLast :
    ∀ (s : List IdWithScore) (x : IdWithScore), List.Sorted IdWithScore.le s →
      ∀ m, s.getLast? = some m → IdWithScore.lt x m →
      s.dropLast.orderedInsert IdWithScore.le x
        = (s.orderedInsert IdWithScore.le x).take s.length := by
  intro s
  induction s with
  | nil => intro x _ m hm _; simp at hm
  | cons y t ih =>
    intro x hs m hm hlt
    rcases List.sorted_cons.mp hs with ⟨hy, ht⟩
    cases t with
    | nil =>
      have hym : y = m := by simpa using hm
      have hle : IdWithScore.le x y := idws_le_of_lt x y (hym ▸ hlt)
      show ([x] : List IdWithScore)
        = ([y].orderedInsert IdWithScore.le x).take 1
      rw [List.orderedInsert, if_pos hle]
      rfl
    | cons z t' =>
      have hm' : (z :: t').getLast? = some m := by
        simpa [List.getLast?_cons_cons] using hm
      have hdl : (y :: z :: t').dropLast = y :: (z :: t').dropLast := rfl
      have hlen3 : (y :: z :: t').length = (z :: t').length + 1 := rfl
      by_cases hxy : IdWithScore.le x y
      · rw [hdl, hlen3, List.orderedInsert, if_pos hxy, List.orderedInsert,
          if_pos hxy, List.take_succ_cons]
        congr 1
        have hlen2 : (z :: t').length = t'.length + 1 := rfl
        rw [hlen2, List.take_succ_cons]
        congr 1
        rw [List.dropLast_eq_take]
        congr 1
      · rw [hdl, hlen3, List.orderedInsert, if_neg hxy, List.orderedInsert,
          if_neg hxy, List.take_succ_cons]
        congr 1
        exact ih x ht m hm' hlt

theorem orderedInsert_take_of_ge :
    ∀ (s : List IdWithScore) (x : IdWithScore), List.Sorted IdWithScore.le s →
      ∀ m, s.getLast? = some m → IdWithScore.le m x →
      (s.orderedInsert IdWithScore.le x).take s.length = s := by
  intro s
  induction s with
  | nil => intro x _ m hm _; simp at hm
  | cons y t ih =>
    intro x hs m hm hmx
    rcases List.sorted_cons.mp hs with ⟨hy, ht⟩
    by_cases hxy : IdWithScore.le x y
    · have hall : ∀ z ∈ y :: t, z = x := by
        intro z hz
        have hzm : IdWithScore.le z m := sorted_le_getLast (y :: t) hs m hm z hz
        have hxz : IdWithScore.le x z := by
          rcases List.mem_cons.mp hz with rfl | hzt
          · exact hxy
          · exact Trans.trans hxy (hy z hzt)
        have hzx : IdWithScore.le z x := Trans.trans hzm hmx
        exact antisymm hzx hxz
      have h1 : y :: t = List.replicate (y :: t).length x :=
        List.eq_replicate_of_mem hall
      rw [List.orderedInsert, if_pos hxy]
      nth_rewrite 2 [h1]
      nth_rewrite 3 [h1]
      rw [← List.replicate_succ, List.take_replicate]
      congr 1
      omega
    · rw [List.orderedInsert, if_neg hxy]
      cases t with
      | nil =>
        simp [List.orderedInsert]
      | cons z t' =>
        have hm' : (z :: t').getLast? = some m := by
          simpa [List.getLast?_cons_cons] using hm
        rw [List.length_cons, List.take_succ_cons, ih x ht m hm' hmx]

theorem heapPush_spec (k : Nat) (s : List IdWithScore) (x : IdWithScore)
    (hs : List.Sorted IdWithScore.le s) (hlen : s.length ≤ k) :
    heapPush k s x = (s.orderedInsert IdWithScore.le x).take k := by
  by_cases h : s.length < k
  · unfold heapPush
    rw [if_pos h,
      List.take_of_length_le (by rw [List.orderedInsert_length]; omega)]
  · have hk : s.length = k := by omega
    cases hsl : s.getLast? with
    | none =>
      have hnil : s = [] := by
        cases s with
        | nil => rfl
        | cons a t => simp [List.getLast?_eq_none_iff] at hsl
      subst hnil
      have hk0 : k = 0 := by simpa using hk.symm
      subst hk0
      rfl
    | some m =>
      by_cases hlt : IdWithScore.lt x m
      · unfold heapPush
        rw [if_neg h]
        simp only [hsl]
        rw [if_pos hlt, orderedInsert_dropLast s x hs m hsl hlt, hk]
      · unfold heapPush
        rw [if_neg h]
        simp only [hsl]
        rw [if_neg hlt, ← hk,
          orderedInsert_take_of_ge s x hs m hsl ((idws_not_lt x m).mp hlt)]

theorem foldl_heapPush (k : Nat) :
    ∀ (xs : List IdWithScore),
      xs.foldl (heapPush k) []
        = (List.insertionSort IdWithScore.le xs).take k := by
  intro xs
  induction xs using List.reverseRecOn with
  | nil => simp
  | append_singleton l x ih =>
    rw [List.foldl_append, List.foldl_cons, List.foldl_nil, ih]
    have hsorted : List.Sorted IdWithScore.le
        ((List.insertionSort IdWithScore.le l).take k) :=
      (List.sorted_insertionSort _ l).sublist (List.take_sublist k _)
    have hlen : ((List.insertionSort IdWithScore.le l).take k).length ≤ k := by
      rw [List.length_take]
      omega
    rw [heapPush_spec k _ x hsorted hlen, orderedInsert_take_take]
    congr 1
    apply List.eq_of_perm_of_sorted (r := IdWithScore.le)
    · exact (List.perm_orderedInsert _ x _).trans
        (((List.perm_insertionSort _ l).cons x).trans
          ((List.perm_append_singleton x l).symm.trans
            (List.perm_insertionSort _ (l ++ [x])).symm))
    · exact List.Sorted.orderedInsert x _ (List.sorted_insertionSort _ l)
    · exact List.sorted_insertionSort _ _

theorem foldl_scan_flatMap (ivf : Ivf) (query : List ℚ) (k : Nat) :
    ∀ (cids : List Nat) (init : List IdWithScore),
      cids.foldl (fun heap c =>
          (ivf.scan_posting_list c query).foldl (heapPush k) heap) init
        = ((cids.flatMap fun c => ivf.scan_posting_list c query)).foldl
            (heapPush k) init := by
  intro cids
  induction cids with
  | nil => intro init; simp
  | cons c t ih =>
    intro init
    rw [List.foldl_cons, ih, List.flatMap_cons, List.foldl_append]

theorem search_with_centroids_eq (ivf : Ivf) (query : List ℚ)
    (cids : List Nat) (k : Nat) :
    ivf.search_with_centroids query cids k
      = (List.insertionSort IdWithScore.le
          (cids.flatMap fun c => ivf.scan_posting_list c query)).take k := by
  unfold Ivf.search_with_centroids
  rw [foldl_scan_flatMap, foldl_heapPush]

/-- C2.  `Ivf::search_with_centroids(query, cids, k)` returns at most `k`
results: exactly the `k` smallest `IdWithScore` candidates (score ascending,
ties by id ascending — the first `k` entries of the sorted candidate list)
drawn from the posting lists of the given centroids, sorted in that same
order; when `k` exceeds the number of available candidates, all of them are
returned (`length = min k candidates`).  `Ivf::search` feeds it the probed
nearest centroids.  (Scores are squared L2 over `ℚ`, an order-preserving
substitute for the `f32` square root.) -/
theorem c2_search_top_k :
    (∀ (ivf : Ivf) (query : List ℚ) (cids : List Nat) (k : Nat),
        ivf.search_with_centroids query cids k
          = (List.insertionSort IdWithScore.le
              (cids.flatMap fun c => ivf.scan_posting_list c query)).take k)
    ∧ (∀ (ivf : Ivf) (query : List ℚ) (cids : List Nat) (k : Nat),
        (ivf.search_with_centroids query cids k).length
          = min k (cids.flatMap fun c => ivf.scan_posting_list c query).length)
    ∧ (∀ (ivf : Ivf) (query : List ℚ) (cids : List Nat) (k : Nat),
        List.Sorted IdWithScore.le (ivf.search_with_centroids query cids k))
    ∧ (∀ (ivf : Ivf) (query : List ℚ) (k ef : Nat) (ncs : List Nat),
        Ivf.find_nearest_centroids query ivf.index_storage ef = some ncs →
        ivf.search query k ef
          = some (ivf.search_with_centroids query ncs k)) := by
  refine ⟨?_, ?_, ?_, ?_⟩
  · intro ivf query cids k
    exact search_with_centroids_eq ivf query cids k
  · intro ivf query cids k
    rw [search_with_centroids_eq, List.length_take,
      (List.perm_insertionSort IdWithScore.le _).length_eq]
  · intro ivf query cids k
    rw [search_with_centroids_eq]
    exact (List.sorted_insertionSort _ _).sublist (List.take_sublist k _)
  · intro ivf query k ef ncs h
    unfold Ivf.search
    simp only [h]

/-- Witness for C2: a one-centroid, one-vector index; `find_nearest` probes
centroid `0` and `search` returns its scanned top-`k`. -/
theorem c2_witness :
    Ivf.search
      { vector_storage := { vectors := [some [1]] },
        index_storage := { header_num_clusters := 1, centroids := [[0]],
                           posting_lists := [some [0]] },
        num_clusters := 1 } [0] 1 1
      = some (Ivf.search_with_centroids
          { vector_storage := { vectors := [some [1]] },
            index_storage := { header_num_clusters := 1, centroids := [[0]],
                               posting_lists := [some [0]] },
            num_clusters := 1 } [0] [0] 1) :=
  c2_search_top_k.2.2.2
    { vector_storage := { vectors := [some [1]] },
      index_storage := { header_num_clusters := 1, centroids := [[0]],
                         posting_lists := [some [0]] },
      num_clusters := 1 } [0] 1 1 [0]
    (by norm_num [Ivf.find_nearest_centroids, computeDistances,
      FixedIndexFile.get_centroid, l2_sq, List.range_succ,
      List.insertionSort, List.orderedInsert, List.mapM, List.mapM.loop,
      Option.map, List.getElem?_cons, distCmpLe])
